import Mathlib

/-!
Shallow embedding of the YDJ music-studio mix optimizer
(`src/mixer/camelot.py` and `src/mixer/mixer.py`) and proofs about it.

Conventions:
* Python strings are embedded as `List Char` (`CamStr`).
* Python functions that can raise are embedded as `Option`-valued functions
  (`none` models an uncaught exception).
* Python `float` cost arithmetic is embedded as exact `ℚ`; every constant in
  the source is an integer or a decimal fraction, so all arithmetic performed
  by the program on these values is exact.
* Python lists indexed under an in-range invariant are embedded with
  `List.getD` with an arbitrary default; all theorems carry the in-range
  hypotheses that the source maintains, under which the default is never hit.
-/

/-- Python strings, embedded as lists of characters. -/
abbrev CamStr := List Char

/-- Helper to write `CamStr` literals. -/
def cam (s : String) : CamStr := s.data

/-- The mode component of a pitch: `"minor"` or `"major"` in the source. -/
inductive Mode where
  | minor : Mode
  | major : Mode
deriving DecidableEq, Repr

instance : BEq Mode := ⟨fun a b => decide (a = b)⟩

instance : LawfulBEq Mode where
  eq_of_beq h := by simpa [BEq.beq] using h
  rfl := by simp [BEq.beq]

/-- `str.lstrip("0")`: drop all leading `'0'` characters. -/
def lstrip0 : CamStr → CamStr
  | '0' :: rest => lstrip0 rest
  | s => s

/-- The characters below code point 128 that Python `str.split()` and
`str.strip()` treat as whitespace: `\t`, `\n`, `\v`, `\f`, `\r` (code
points 9-13), the separator controls 28-31, and the space 32. Above 127
Python additionally treats Unicode space characters (e.g. U+00A0) as
whitespace, so the parsing theorems restrict their inputs to characters below
128, where this predicate is exact. -/
def pyStrSpace (c : Char) : Bool :=
  decide (c.toNat = 32 ∨ (9 ≤ c.toNat ∧ c.toNat ≤ 13) ∨ (28 ≤ c.toNat ∧ c.toNat ≤ 31))

/-- The characters below code point 128 that `int()` strips around a numeric
string: the C-locale whitespace, code points 9-13 and 32. The separator
controls 28-31 are NOT stripped by `int()` even though `str.split()` treats
them as whitespace. Above 127 `int()` additionally accepts Unicode
whitespace, outside the below-128 scope of the parsing theorems. -/
def pyIntSpace (c : Char) : Bool :=
  decide (c.toNat = 32 ∨ (9 ≤ c.toNat ∧ c.toNat ≤ 13))

/-- The whitespace stripping `int()` performs around the numeric literal:
remove leading and trailing C-locale whitespace. -/
def pyStrip (s : CamStr) : CamStr :=
  ((s.dropWhile pyIntSpace).reverse.dropWhile pyIntSpace).reverse

/-- Value of a decimal digit character, `none` on a non-digit.
Models the per-character work of Python `int()`; Python also accepts Unicode
decimal digits (e.g. U+0660), all above code point 127, so below 128 this is
exact. -/
def digitVal (c : Char) : Option ℕ :=
  if c.isDigit then some (c.toNat - 48) else none

/-- The digit part of a Python decimal integer literal after its first digit:
more digits, with single underscores allowed strictly between digits
(PEP 515): an underscore must be followed by a digit and may not be doubled
or trailing. `a` is the value accumulated so far. -/
def pyDigitsTail (a : ℕ) : List Char → Option ℕ
  | [] => some a
  | '_' :: c :: rest =>
    match digitVal c with
    | some d => pyDigitsTail (a * 10 + d) rest
    | none => none
  | c :: rest =>
    match digitVal c with
    | some d => pyDigitsTail (a * 10 + d) rest
    | none => none

/-- The digit part of a Python decimal integer literal: a nonempty digit
sequence with single underscores between digits; `none` on the empty string,
on a leading underscore and on every other malformed shape. -/
def pyDigits : List Char → Option ℕ
  | [] => none
  | c :: rest =>
    match digitVal c with
    | some d => pyDigitsTail d rest
    | none => none

/-- Python `int(s)` in base 10: surrounding whitespace is stripped, one
optional `+` or `-` sign is allowed directly before the digits, and the digit
part may use underscore separators; `none` models the raised `ValueError`.
Exact for strings of characters below code point 128 (above 127 Python
additionally accepts Unicode decimal digits and Unicode whitespace). -/
def pyInt (s : CamStr) : Option ℤ :=
  match pyStrip s with
  | '+' :: rest => (pyDigits rest).map Int.ofNat
  | '-' :: rest => (pyDigits rest).map (fun n => -(n : ℤ))
  | t => (pyDigits t).map Int.ofNat

/-- `parse_camelot` (camelot.py line 12): `int(camelot_str[:-1]), camelot_str[-1]`.
`none` models the raised exception (`IndexError` on the empty string,
`ValueError` when the prefix is not a decimal literal). -/
def parse_camelot : CamStr → Option (ℤ × Char)
  | [] => none
  | c :: cs =>
    (pyInt ((c :: cs).dropLast)).map
      (fun n => (n, (c :: cs).getLast (List.cons_ne_nil c cs)))

/-- The `camelot_to_pitch` dictionary (camelot.py line 16). -/
def camelot_to_pitch : List (CamStr × (ℤ × Mode)) :=
  [(cam "1A", (8, .minor)), (cam "1B", (11, .major)),
   (cam "2A", (3, .minor)), (cam "2B", (6, .major)),
   (cam "3A", (10, .minor)), (cam "3B", (1, .major)),
   (cam "4A", (5, .minor)), (cam "4B", (8, .major)),
   (cam "5A", (0, .minor)), (cam "5B", (3, .major)),
   (cam "6A", (7, .minor)), (cam "6B", (10, .major)),
   (cam "7A", (2, .minor)), (cam "7B", (5, .major)),
   (cam "8A", (9, .minor)), (cam "8B", (0, .major)),
   (cam "9A", (4, .minor)), (cam "9B", (7, .major)),
   (cam "10A", (11, .minor)), (cam "10B", (2, .major)),
   (cam "11A", (6, .minor)), (cam "11B", (9, .major)),
   (cam "12A", (1, .minor)), (cam "12B", (4, .major))]

/-- `pitch_to_camelot = {v: k for k, v in camelot_to_pitch.items()}`
(camelot.py line 43). All values are distinct, so the comprehension is a
plain inversion. -/
def pitch_to_camelot : List ((ℤ × Mode) × CamStr) :=
  camelot_to_pitch.map (fun p => (p.2, p.1))

/-- `shift_camelot_key(original_key, semitone_shift)` (camelot.py line 45).
For shift 0 the (zero-stripped) input is returned with no validation at all;
otherwise the key is looked up in `camelot_to_pitch` (`none` models the raised
`KeyError`), the pitch is moved by the shift modulo 12, and mapped back
(`none` models the raised `ValueError` when the reverse lookup fails). -/
def shift_camelot_key (original_key : CamStr) (semitone_shift : ℤ) : Option CamStr :=
  let k := lstrip0 original_key
  if semitone_shift = 0 then
    some k
  else
    match camelot_to_pitch.lookup k with
    | none => none
    | some (pitch, mode) =>
      let new_pitch := (pitch + semitone_shift) % 12
      pitch_to_camelot.lookup (new_pitch, mode)

/-- Python `str.split()` with no separator: split on runs of whitespace (the
same whitespace set as `str.strip()`), dropping empty fields; exact for
characters below code point 128. -/
def pySplitWs (s : CamStr) : List CamStr :=
  (List.splitOnP pyStrSpace s).filter (fun t => !t.isEmpty)

/-- `extract_key_from_comments(comments)` (camelot.py line 58). The outer
`Option` models control flow: `none` is the `IndexError` raised by
`comments.split()[0]` when a nonempty comment contains only whitespace;
`some none` is the `None` returned for an empty (falsy) comment; otherwise
the first whitespace-separated token is returned with leading zeros
stripped. -/
def extract_key_from_comments (comments : CamStr) : Option (Option CamStr) :=
  if comments.isEmpty then some none
  else
    match pySplitWs comments with
    | [] => none
    | t :: _ => some (some (lstrip0 t))

/-! ## Cost parameters (mixer.py lines 42-54) -/

def TEMPO_THRESHOLD : ℚ := 9 / 2
def TEMPO_PENALTY : ℚ := 5
def TEMPO_BREAK_FACTOR : ℚ := 2
def TEMPO_COST_WEIGHT : ℚ := 3

def EXACT_MATCH_COST : ℚ := 0
def SAME_KEY_SCALE_CHANGE_COST : ℚ := 1 / 2
def KEY_DIFF_ONE_COST : ℚ := 1 / 2
def KEY_DIFF_ONE_SCALE_CHANGE_COST : ℚ := 5
def NON_HARMONIC_COST : ℚ := 5

def SHIFT_PENALTY : ℚ := 1

/-- `SHIFT_WEIGHT` (mixer.py line 54). The spec (§6) treats it as
configuration; functions below that read it take it as a parameter, and this
is the module default. -/
def SHIFT_WEIGHT : ℚ := 1

/-- `harmonic_cost_from_keys(key1, key2)` (mixer.py line 82). -/
def harmonic_cost_from_keys (key1 key2 : CamStr) : Option ℚ :=
  let key1 := lstrip0 key1
  let key2 := lstrip0 key2
  match parse_camelot key1, parse_camelot key2 with
  | some (num1, scale1), some (num2, scale2) =>
    if num1 = num2 ∧ scale1 = scale2 then
      some EXACT_MATCH_COST
    else if num1 = num2 ∧ scale1 ≠ scale2 then
      some SAME_KEY_SCALE_CHANGE_COST
    else
      let diff := |num1 - num2|
      let diff := min diff (12 - diff)
      if diff = 1 then
        if scale1 = scale2 then some KEY_DIFF_ONE_COST
        else some KEY_DIFF_ONE_SCALE_CHANGE_COST
      else
        some NON_HARMONIC_COST
  | _, _ => none

/-- `camelot_keys = [f"{num}{letter}" for num in range(1,13) for letter in ["A","B"]]`
(mixer.py line 128), written out literally in comprehension order. -/
def camelot_keys : List CamStr :=
  [cam "1A", cam "1B", cam "2A", cam "2B", cam "3A", cam "3B",
   cam "4A", cam "4B", cam "5A", cam "5B", cam "6A", cam "6B",
   cam "7A", cam "7B", cam "8A", cam "8B", cam "9A", cam "9B",
   cam "10A", cam "10B", cam "11A", cam "11B", cam "12A", cam "12B"]

/-- Python `min(...)` over a list of rationals; the source only applies it to
nonempty lists (`min` raises on an empty one, modelled by the junk value 0). -/
def pyMin : List ℚ → ℚ
  | [] => 0
  | x :: xs => xs.foldl min x

/-- The indirect cost computed inside the table-building loop
(mixer.py lines 136-137):
`min(harmonic_cost_from_keys(k1,k3) + harmonic_cost_from_keys(k3,k2) for k3 in camelot_keys)`. -/
def indirect_cost_of (k1 k2 : CamStr) : Option ℚ :=
  (camelot_keys.mapM (fun k3 =>
    match harmonic_cost_from_keys k1 k3, harmonic_cost_from_keys k3 k2 with
    | some a, some b => some (a + b)
    | _, _ => none)).map pyMin

/-- The `transition_harmonic_costs` nested dictionary (mixer.py lines 130-138)
as a function: defined exactly for the key pairs the build loop ranges over,
with value `(direct_cost, indirect_cost)`. -/
def transition_harmonic_costs (k1 k2 : CamStr) : Option (ℚ × ℚ) :=
  if k1 ∈ camelot_keys ∧ k2 ∈ camelot_keys then
    match harmonic_cost_from_keys k1 k2, indirect_cost_of k1 k2 with
    | some d, some ind => some (d, ind)
    | _, _ => none
  else none

/-! ## Precomputed integer tables for the fast SA loop (mixer.py lines 146-172) -/

/-- `KEY_TO_ID = {k: i for i, k in enumerate(camelot_keys)}` (mixer.py line 151). -/
def KEY_TO_ID : List (CamStr × ℕ) :=
  camelot_keys.enum.map (fun p => (p.2, p.1))

/-- Dictionary access `KEY_TO_ID[k]`. The default 0 models the `KeyError`
raised on a non-canonical key, which the build loops never produce. -/
def keyId (k : CamStr) : ℕ := (KEY_TO_ID.lookup k).getD 0

/-- `NUM_KEYS = len(camelot_keys)` (mixer.py line 152). -/
def NUM_KEYS : ℕ := camelot_keys.length

/-- One entry of `_shift_table`: `KEY_TO_ID[shift_camelot_key(key, s)]`
(mixer.py lines 156-160). The default 0 models exceptions the build loop
never raises (both lookups succeed on all 72 `(key, shift)` pairs). -/
def shiftEntry (key : CamStr) (s : ℤ) : ℕ :=
  ((shift_camelot_key key s).bind (fun e => KEY_TO_ID.lookup e)).getD 0

/-- `_shift_table` laid out as in the source: index `kid * 3 + (s + 1)`. -/
def _shift_table : List ℕ :=
  camelot_keys.flatMap (fun k => [shiftEntry k (-1), shiftEntry k 0, shiftEntry k 1])

/-- `_direct_cost_flat` (mixer.py lines 163-169), row-major at `i * 24 + j`.
The `getD` default models the unpacking of a dictionary value that is present
for every pair the loop ranges over. -/
def _direct_cost_flat : List ℚ :=
  camelot_keys.flatMap (fun k1 =>
    camelot_keys.map (fun k2 => ((transition_harmonic_costs k1 k2).getD (0, 0)).1))

/-- `_indirect_cost_flat` (mixer.py lines 163-169). -/
def _indirect_cost_flat : List ℚ :=
  camelot_keys.flatMap (fun k1 =>
    camelot_keys.map (fun k2 => ((transition_harmonic_costs k1 k2).getD (0, 0)).2))

/-- `_TEMPO_BREAK_THRESHOLD = TEMPO_BREAK_FACTOR * TEMPO_THRESHOLD` (line 172). -/
def _TEMPO_BREAK_THRESHOLD : ℚ := TEMPO_BREAK_FACTOR * TEMPO_THRESHOLD

/-- `tempo_cost_value(bpm1, bpm2)` (mixer.py line 175). -/
def tempo_cost_value (bpm1 bpm2 : ℤ) : ℚ :=
  if ((|bpm1 - bpm2| : ℤ) : ℚ) ≤ TEMPO_THRESHOLD then 0 else TEMPO_PENALTY

/-- `_fast_edge_cost(i1, i2, s1, s2, bpm_arr, key_id_arr)` (mixer.py line 179).
All list accesses are in range whenever `i1, i2` index the arrays, the key ids
are below 24 and the shifts are in `{-1, 0, +1}`; the `getD`/`toNat` defaults
model the exceptions the source would raise outside that invariant. -/
def _fast_edge_cost (i1 i2 : ℕ) (s1 s2 : ℤ) (bpm_arr : List ℤ) (key_id_arr : List ℕ) : ℚ :=
  let diff : ℤ := |bpm_arr.getD i1 0 - bpm_arr.getD i2 0|
  if ((diff : ℚ) > _TEMPO_BREAK_THRESHOLD) then
    TEMPO_COST_WEIGHT * (TEMPO_PENALTY * TEMPO_BREAK_FACTOR)
  else
    let ek1 := _shift_table.getD ((key_id_arr.getD i1 0 : ℤ) * 3 + (s1 + 1)).toNat 0
    let ek2 := _shift_table.getD ((key_id_arr.getD i2 0 : ℤ) * 3 + (s2 + 1)).toNat 0
    let idx := ek1 * NUM_KEYS + ek2
    let direct := _direct_cost_flat.getD idx 0
    let h_cost :=
      if direct = NON_HARMONIC_COST ∧ _indirect_cost_flat.getD idx 0 ≥ NON_HARMONIC_COST then
        direct + 2 * NON_HARMONIC_COST
      else direct
    let t_cost : ℚ := if ((diff : ℚ) > TEMPO_THRESHOLD) then TEMPO_PENALTY else 0
    h_cost + TEMPO_COST_WEIGHT * t_cost

/-! ## String/dict cost evaluators (mixer.py lines 240-295)

The module-level arrays `bpms` and `base_keys` are passed explicitly. -/

/-- `transition_cost_components(i1, i2, s1, s2)` (mixer.py line 240). -/
def transition_cost_components (bpms : List ℤ) (base_keys : List CamStr)
    (i1 i2 : ℕ) (s1 s2 : ℤ) : Option (ℚ × ℚ) :=
  let diff : ℤ := |bpms.getD i1 0 - bpms.getD i2 0|
  if ((diff : ℚ) > TEMPO_BREAK_FACTOR * TEMPO_THRESHOLD) then
    some (0, tempo_cost_value (bpms.getD i1 0) (bpms.getD i2 0) * TEMPO_BREAK_FACTOR)
  else
    match shift_camelot_key (base_keys.getD i1 []) s1,
          shift_camelot_key (base_keys.getD i2 []) s2 with
    | some key1, some key2 =>
      match transition_harmonic_costs key1 key2 with
      | some (direct, indirect) =>
        let h_cost :=
          if direct = NON_HARMONIC_COST ∧ indirect ≥ NON_HARMONIC_COST then
            direct + 2 * NON_HARMONIC_COST
          else direct
        some (h_cost, tempo_cost_value (bpms.getD i1 0) (bpms.getD i2 0))
      | none => none
    | _, _ => none

/-- `transition_cost_value(i1, i2, s1, s2)` (mixer.py line 260). -/
def transition_cost_value (bpms : List ℤ) (base_keys : List CamStr)
    (i1 i2 : ℕ) (s1 s2 : ℤ) : Option ℚ :=
  (transition_cost_components bpms base_keys i1 i2 s1 s2).map
    (fun p => p.1 + TEMPO_COST_WEIGHT * p.2)

/-- `total_mix_cost_split_order(order, shifts)` (mixer.py line 265). The loop
body is a verbatim inline of `transition_cost_components` at
`(order[j], order[j+1], shifts[order[j]], shifts[order[j+1]])`, which is
reused here; the shift term counts over `order` itself (line 286). -/
def total_mix_cost_split_order (bpms : List ℤ) (base_keys : List CamStr)
    (order : List ℕ) (shifts : List ℤ) : Option (ℚ × ℚ × ℚ) :=
  ((List.range (order.length - 1)).mapM (fun j =>
      transition_cost_components bpms base_keys
        (order.getD j 0) (order.getD (j + 1) 0)
        (shifts.getD (order.getD j 0) 0) (shifts.getD (order.getD (j + 1) 0) 0))).map
    (fun pairs =>
      ((pairs.map Prod.fst).sum, (pairs.map Prod.snd).sum,
        SHIFT_PENALTY * ((order.countP (fun i => shifts.getD i 0 != 0) : ℕ) : ℚ)))

/-- The per-attempt reporting computation (mixer.py lines 703-704):
`h, t, s = total_mix_cost_split_order(best_order, best_shifts)` followed by
`overall = h + TEMPO_COST_WEIGHT * t + s`. This `overall` is the value the
program reports (and tracks as `global_overall_best_cost`, line 724). -/
def attempt_overall (bpms : List ℤ) (base_keys : List CamStr)
    (order : List ℕ) (shifts : List ℤ) : Option ℚ :=
  (total_mix_cost_split_order bpms base_keys order shifts).map
    (fun p => p.1 + TEMPO_COST_WEIGHT * p.2.1 + p.2.2)

/-! ## Local shift optimization (mixer.py lines 298-332 and 381-402) -/

/-- The local cost around position `pos` used by `optimize_shift_at`
(mixer.py lines 311-315 / 321-325): sum of the at-most-two incident transition
costs, every shift being read out of `shifts`. -/
def local_cost_at (bpms : List ℤ) (base_keys : List CamStr)
    (order : List ℕ) (shifts : List ℤ) (pos : ℕ) : Option ℚ := do
  let i := order.getD pos 0
  let c1 ← (if 0 < pos then
      transition_cost_value bpms base_keys (order.getD (pos - 1) 0) i
        (shifts.getD (order.getD (pos - 1) 0) 0) (shifts.getD i 0)
    else some 0)
  let c2 ← (if pos < order.length - 1 then
      transition_cost_value bpms base_keys i (order.getD (pos + 1) 0)
        (shifts.getD i 0) (shifts.getD (order.getD (pos + 1) 0) 0)
    else some 0)
  some (c1 + c2)

/-- `optimize_shift_at(order, shifts, pos)` (mixer.py line 298). The source
mutates `shifts[i]` to each candidate, computes the candidate cost, restores,
and finally writes the best shift; the embedding returns the chosen shift
together with the final shifts list. -/
def optimize_shift_at (bpms : List ℤ) (base_keys : List CamStr)
    (order : List ℕ) (shifts : List ℤ) (pos : ℕ) : Option (ℤ × List ℤ) := do
  let i := order.getD pos 0
  let best0 ← local_cost_at bpms base_keys order shifts pos
  let r ← [(-1 : ℤ), 0, 1].foldlM
    (fun (best : ℚ × ℤ) s => do
      let c ← local_cost_at bpms base_keys order (shifts.set i s) pos
      pure (if c < best.1 then (c, s) else best))
    (best0, shifts.getD i 0)
  pure (r.2, shifts.set i r.2)

/-- `_edge_positions_for_swap(a, b, n)` (mixer.py line 334), as a `Finset`
(the source builds a Python `set`). -/
def _edge_positions_for_swap (a b n : ℕ) : Finset ℕ :=
  ((if 0 < a then {a - 1} else (∅ : Finset ℕ)) ∪ (if a < n - 1 then {a} else ∅)) ∪
  ((if 0 < b then {b - 1} else (∅ : Finset ℕ)) ∪ (if b < n - 1 then {b} else ∅))

/-- The per-edge `(h, t)` contribution of the loop body of
`_compute_total_cost` (mixer.py lines 355-368). -/
def _edge_ht (i1 i2 : ℕ) (s1 s2 : ℤ) (bpm_arr : List ℤ) (key_id_arr : List ℕ) : ℚ × ℚ :=
  let diff : ℤ := |bpm_arr.getD i1 0 - bpm_arr.getD i2 0|
  if ((diff : ℚ) > _TEMPO_BREAK_THRESHOLD) then
    (0, TEMPO_PENALTY * TEMPO_BREAK_FACTOR)
  else
    let ek1 := _shift_table.getD ((key_id_arr.getD i1 0 : ℤ) * 3 + (s1 + 1)).toNat 0
    let ek2 := _shift_table.getD ((key_id_arr.getD i2 0 : ℤ) * 3 + (s2 + 1)).toNat 0
    let idx := ek1 * NUM_KEYS + ek2
    let direct := _direct_cost_flat.getD idx 0
    let h :=
      if direct = NON_HARMONIC_COST ∧ _indirect_cost_flat.getD idx 0 ≥ NON_HARMONIC_COST then
        direct + 2 * NON_HARMONIC_COST
      else direct
    (h, if ((diff : ℚ) > TEMPO_THRESHOLD) then TEMPO_PENALTY else 0)

/-- `_compute_total_cost(order, shifts, bpm_arr, key_id_arr)` (mixer.py
line 349), returning `(total, h, t, s)`. The running accumulation over
`range(n-1)` is written as a sum over the same range; `sw` is the
`SHIFT_WEIGHT` configuration value (module default `SHIFT_WEIGHT = 1`). -/
def _compute_total_cost (sw : ℚ) (order : List ℕ) (shifts : List ℤ)
    (bpm_arr : List ℤ) (key_id_arr : List ℕ) : ℚ × ℚ × ℚ × ℚ :=
  let n := order.length
  let edge := fun j => _edge_ht (order.getD j 0) (order.getD (j + 1) 0)
    (shifts.getD (order.getD j 0) 0) (shifts.getD (order.getD (j + 1) 0) 0)
    bpm_arr key_id_arr
  let h_total := ∑ j ∈ Finset.range (n - 1), (edge j).1
  let t_total := ∑ j ∈ Finset.range (n - 1), (edge j).2
  let s_total := SHIFT_PENALTY * (((Finset.range n).filter (fun i => shifts.getD i 0 ≠ 0)).card : ℚ)
  (h_total + TEMPO_COST_WEIGHT * t_total + sw * s_total, h_total, t_total, s_total)

/-- `_sum_edge_costs(positions, order, shifts, bpm_arr, key_id_arr)`
(mixer.py line 373); iteration order over the Python set is irrelevant since
addition commutes. -/
def _sum_edge_costs (positions : Finset ℕ) (order : List ℕ) (shifts : List ℤ)
    (bpm_arr : List ℤ) (key_id_arr : List ℕ) : ℚ :=
  ∑ j ∈ positions,
    _fast_edge_cost (order.getD j 0) (order.getD (j + 1) 0)
      (shifts.getD (order.getD j 0) 0) (shifts.getD (order.getD (j + 1) 0) 0)
      bpm_arr key_id_arr

/-- The candidate cost of the loop of `_optimize_shift_fast` after
`shifts[i] = s` (mixer.py lines 392-398): the neighbours' shifts are read from
the mutated list, the track's own shift is passed as `s` directly. -/
def _local_fast_cost (order : List ℕ) (shifts : List ℤ) (pos : ℕ) (s : ℤ)
    (bpm_arr : List ℤ) (key_id_arr : List ℕ) : ℚ :=
  let i := order.getD pos 0
  let shifts' := shifts.set i s
  (if 0 < pos then
    _fast_edge_cost (order.getD (pos - 1) 0) i
      (shifts'.getD (order.getD (pos - 1) 0) 0) s bpm_arr key_id_arr
  else 0) +
  (if pos < order.length - 1 then
    _fast_edge_cost i (order.getD (pos + 1) 0) s
      (shifts'.getD (order.getD (pos + 1) 0) 0) bpm_arr key_id_arr
  else 0)

/-- `_optimize_shift_fast(order, shifts, pos, bpm_arr, key_id_arr)` (mixer.py
line 381): in-place mutation of `shifts` becomes returning the new list. -/
def _optimize_shift_fast (order : List ℕ) (shifts : List ℤ) (pos : ℕ)
    (bpm_arr : List ℤ) (key_id_arr : List ℕ) : List ℤ :=
  let i := order.getD pos 0
  let best0 :=
    (if 0 < pos then
      _fast_edge_cost (order.getD (pos - 1) 0) i
        (shifts.getD (order.getD (pos - 1) 0) 0) (shifts.getD i 0) bpm_arr key_id_arr
    else 0) +
    (if pos < order.length - 1 then
      _fast_edge_cost i (order.getD (pos + 1) 0)
        (shifts.getD i 0) (shifts.getD (order.getD (pos + 1) 0) 0) bpm_arr key_id_arr
    else 0)
  let r := [(-1 : ℤ), 0, 1].foldl
    (fun (best : ℚ × ℤ) s =>
      let c := _local_fast_cost order shifts pos s bpm_arr key_id_arr
      if c < best.1 then (c, s) else best)
    (best0, shifts.getD i 0)
  shifts.set i r.2

/-! ## Annealer inner-loop state machine (mixer.py lines 405-501)

The floating-point Metropolis draw `math.exp((best_cost - candidate_cost) /
temp) > random.random()` (line 489) and the random position draw
`random.sample(range(n), 2)` (line 442) are the only nondeterministic /
floating-point ingredients of an iteration; they enter the step as oracle
inputs `metro` and `draw`. The temperature only feeds the Metropolis draw and
the progress printing, so it does not appear in the state. -/

structure SAState where
  order : List ℕ
  shifts : List ℤ
  current_cost : ℚ
  best_order : List ℕ
  best_shifts : List ℤ
  best_cost : ℚ
  in_escape_mode : Bool
  escape_counter : ℕ

/-- One iteration of the main optimization loop (mixer.py lines 434-499),
with `sw` the `SHIFT_WEIGHT` configuration value. The reporting-only
recomputation of `(h_best, t_best, s_best)` on improvement (line 479) and the
progress printing are omitted. -/
def sa_step (sw : ℚ) (bpm_arr : List ℤ) (key_id_arr : List ℕ) (n : ℕ)
    (num_candidates : ℕ) (draw : ℕ × ℕ) (metro : Bool) (st : SAState) : SAState :=
  let order := if st.in_escape_mode then st.order else st.best_order
  let shifts := if st.in_escape_mode then st.shifts else st.best_shifts
  let current_cost := if st.in_escape_mode then st.current_cost else st.best_cost
  let a := draw.1
  let b := draw.2
  let affected := _edge_positions_for_swap a b n
  let old_edge_cost := _sum_edge_costs affected order shifts bpm_arr key_id_arr
  let old_shift_a := shifts.getD (order.getD a 0) 0
  let old_shift_b := shifts.getD (order.getD b 0) 0
  let old_shift_count : ℚ :=
    (if old_shift_a ≠ 0 then 1 else 0) + (if old_shift_b ≠ 0 then 1 else 0)
  let order1 := (order.set a (order.getD b 0)).set b (order.getD a 0)
  let shifts1 := _optimize_shift_fast order1 shifts a bpm_arr key_id_arr
  let shifts2 := _optimize_shift_fast order1 shifts1 b bpm_arr key_id_arr
  let new_edge_cost := _sum_edge_costs affected order1 shifts2 bpm_arr key_id_arr
  let new_shift_a := shifts2.getD (order1.getD a 0) 0
  let new_shift_b := shifts2.getD (order1.getD b 0) 0
  let new_shift_count : ℚ :=
    (if new_shift_a ≠ 0 then 1 else 0) + (if new_shift_b ≠ 0 then 1 else 0)
  let shift_delta := SHIFT_PENALTY * sw * (new_shift_count - old_shift_count)
  let candidate_cost := current_cost + (new_edge_cost - old_edge_cost) + shift_delta
  if candidate_cost < st.best_cost then
    { order := order1, shifts := shifts2, current_cost := candidate_cost,
      best_order := order1, best_shifts := shifts2, best_cost := candidate_cost,
      in_escape_mode := false, escape_counter := st.escape_counter }
  else if st.in_escape_mode then
    if st.escape_counter + 1 > num_candidates then
      { order := order1, shifts := shifts2, current_cost := candidate_cost,
        best_order := st.best_order, best_shifts := st.best_shifts,
        best_cost := st.best_cost, in_escape_mode := false, escape_counter := 0 }
    else
      { order := order1, shifts := shifts2, current_cost := candidate_cost,
        best_order := st.best_order, best_shifts := st.best_shifts,
        best_cost := st.best_cost, in_escape_mode := true,
        escape_counter := st.escape_counter + 1 }
  else if metro then
    { order := order1, shifts := shifts2, current_cost := candidate_cost,
      best_order := st.best_order, best_shifts := st.best_shifts,
      best_cost := st.best_cost, in_escape_mode := true, escape_counter := 0 }
  else
    { order := order1, shifts := shifts2, current_cost := current_cost,
      best_order := st.best_order, best_shifts := st.best_shifts,
      best_cost := st.best_cost, in_escape_mode := false,
      escape_counter := st.escape_counter }

/-- Per-attempt initialization (mixer.py lines 405-430). `order0` and
`shifts0` stand for the values produced by `random.sample(range(n), n)` and
the `n` draws of `random.choice([-1, 0, 1])`; the documented semantics of
those library calls (a permutation of `range(n)`; elements of `{-1, 0, 1}`)
appear as hypotheses of the invariant theorems. -/
def sa_init (sw : ℚ) (bpm_arr : List ℤ) (key_id_arr : List ℕ)
    (order0 : List ℕ) (shifts0 : List ℤ) : SAState :=
  let best_cost := (_compute_total_cost sw order0 shifts0 bpm_arr key_id_arr).1
  { order := order0, shifts := shifts0, current_cost := best_cost,
    best_order := order0, best_shifts := shifts0, best_cost := best_cost,
    in_escape_mode := false, escape_counter := 0 }

/-- `k` iterations of the inner loop driven by the oracle streams `draws`
(the two positions drawn at iteration `t`) and `metros` (the outcome of the
Metropolis draw at iteration `t`). -/
def sa_iterate (sw : ℚ) (bpm_arr : List ℤ) (key_id_arr : List ℕ) (n : ℕ)
    (num_candidates : ℕ) (draws : ℕ → ℕ × ℕ) (metros : ℕ → Bool) :
    ℕ → SAState → SAState
  | 0, st => st
  | Nat.succ k, st =>
    sa_step sw bpm_arr key_id_arr n num_candidates (draws k) (metros k)
      (sa_iterate sw bpm_arr key_id_arr n num_candidates draws metros k st)

/-- `order` is a permutation of `0..n-1`: right length, no duplicates, all
entries in range. -/
def IsPermOf (n : ℕ) (l : List ℕ) : Prop :=
  l.length = n ∧ l.Nodup ∧ ∀ x ∈ l, x < n

/-- Every shift is one of `{-1, 0, +1}` and the list has the right length. -/
def ValidShifts (n : ℕ) (l : List ℤ) : Prop :=
  l.length = n ∧ ∀ s ∈ l, s = -1 ∨ s = 0 ∨ s = 1

/-- The state invariant of the annealer (spec §8, invariants 1-2), for the
working state and the best state alike. -/
def SAInv (n : ℕ) (st : SAState) : Prop :=
  IsPermOf n st.order ∧ ValidShifts n st.shifts ∧
  IsPermOf n st.best_order ∧ ValidShifts n st.best_shifts

/-! ## Input loading and validation (mixer.py lines 209-227) -/

/-- One row of the "Mixer input" playlist; titles and artists are
reporting-only labels and are omitted. -/
structure MixRow where
  bpm : ℤ
  comments : CamStr

/-- The `valid_keys` literal set (mixer.py line 209). -/
def valid_keys : List CamStr :=
  [cam "1A", cam "1B", cam "2A", cam "2B", cam "3A", cam "3B",
   cam "4A", cam "4B", cam "5A", cam "5B", cam "6A", cam "6B",
   cam "7A", cam "7B", cam "8A", cam "8B", cam "9A", cam "9B",
   cam "10A", cam "10B", cam "11A", cam "11B", cam "12A", cam "12B"]

/-- The body of the filter loop building `mix_tracks_data` (mixer.py lines
211-224). The key is extracted first (a nonempty all-whitespace comment makes
the extraction raise `IndexError`, which propagates: outer `none`); then a row
whose BPM equals 0, or whose extracted key is missing or not in `valid_keys`,
is skipped with a printed warning (`some none`); otherwise its
`(bpm, camelot)` data is kept (`some (some _)`). -/
def row_track (r : MixRow) : Option (Option (ℤ × CamStr)) :=
  match extract_key_from_comments r.comments with
  | none => none
  | some key =>
    if r.bpm = 0 then some none
    else
      match key with
      | some k => if k ∈ valid_keys then some (some (r.bpm, k)) else some none
      | none => some none

/-- The `mix_tracks_data` list (mixer.py lines 210-224): the rows are
processed in order and an `IndexError` raised on any row aborts the whole
loop (`none`); otherwise the kept rows are collected. -/
def mix_tracks_data (rows : List MixRow) : Option (List (ℤ × CamStr)) :=
  (rows.mapM row_track).map (fun l => l.filterMap id)

/-- The input-size validation (mixer.py lines 225-227):
`if len(mix_tracks_data) == 0: raise ValueError("No valid mix tracks found.")`.
`none` models a raise, either the `IndexError` escaping the filter loop or
this `ValueError`; otherwise the track list flows into the optimizer. -/
def validated_mix_tracks (rows : List MixRow) : Option (List (ℤ × CamStr)) :=
  (mix_tracks_data rows).bind (fun d => if d.length = 0 then none else some d)

/-! ## Generic helper lemmas -/

theorem foldl_min_le_init (xs : List ℚ) (a : ℚ) : xs.foldl min a ≤ a := by
  induction xs generalizing a with
  | nil => simp
  | cons x xs ih => exact le_trans (ih (min a x)) (min_le_left a x)

theorem foldl_min_le_mem (xs : List ℚ) : ∀ (a x : ℚ), x ∈ xs → xs.foldl min a ≤ x := by
  induction xs with
  | nil => intro a x hx; cases hx
  | cons y ys ih =>
    intro a x hx
    rcases List.mem_cons.1 hx with rfl | h
    · exact le_trans (foldl_min_le_init ys (min a x)) (min_le_right a x)
    · exact ih (min a y) x h

theorem pyMin_le_of_mem (l : List ℚ) (x : ℚ) (hx : x ∈ l) : pyMin l ≤ x := by
  cases l with
  | nil => cases hx
  | cons y ys =>
    rcases List.mem_cons.1 hx with rfl | h
    · exact foldl_min_le_init ys x
    · exact foldl_min_le_mem ys y x h

theorem mapM_eq_some_map {α β : Type} (f : α → Option β) (g : α → β) :
    ∀ (xs : List α), (∀ x ∈ xs, f x = some (g x)) → xs.mapM f = some (xs.map g) := by
  intro xs
  induction xs with
  | nil => intro _; rfl
  | cons a l ih =>
    intro h
    rw [List.mapM_cons, h a (List.mem_cons_self a l),
      ih (fun x hx => h x (List.mem_cons_of_mem a hx))]
    rfl

theorem mapM_mem_of_eq_some {α β : Type} (f : α → Option β) :
    ∀ (xs : List α) (ys : List β), xs.mapM f = some ys →
      ∀ x ∈ xs, ∀ y, f x = some y → y ∈ ys := by
  intro xs
  induction xs with
  | nil => intro ys _ x hx; cases hx
  | cons a l ih =>
    intro ys hys x hx y hy
    rw [List.mapM_cons] at hys
    cases hfa : f a with
    | none => rw [hfa] at hys; cases hys
    | some b =>
      rw [hfa] at hys
      cases hml : l.mapM f with
      | none => rw [hml] at hys; cases hys
      | some bs =>
        rw [hml] at hys
        have hys' : ys = b :: bs := by
          simpa using hys.symm
        subst hys'
        rcases List.mem_cons.1 hx with rfl | hxl
        · have : y = b := by rw [hfa] at hy; exact (Option.some_inj.1 hy).symm
          exact this ▸ List.mem_cons_self b bs
        · exact List.mem_cons_of_mem b (ih bs hml x hxl y hy)

theorem mapM_isSome_of_forall {α β : Type} (f : α → Option β) :
    ∀ (xs : List α), (∀ x ∈ xs, (f x).isSome) → (xs.mapM f).isSome := by
  intro xs
  induction xs with
  | nil => intro _; rfl
  | cons a l ih =>
    intro h
    rw [List.mapM_cons]
    cases hfa : f a with
    | none => exact absurd (hfa ▸ h a (List.mem_cons_self a l)) (by simp)
    | some b =>
      have := ih (fun x hx => h x (List.mem_cons_of_mem a hx))
      cases hml : l.mapM f with
      | none => rw [hml] at this; cases this
      | some bs => simp

theorem mapM_mem_inv {α β : Type} (f : α → Option β) :
    ∀ (xs : List α) (ys : List β), xs.mapM f = some ys →
      ∀ y ∈ ys, ∃ x ∈ xs, f x = some y := by
  intro xs
  induction xs with
  | nil =>
    intro ys hys y hy
    have h2 : (some [] : Option (List β)) = some ys := hys
    have hys2 : ys = [] := (Option.some_inj.mp h2).symm
    subst hys2
    cases hy
  | cons a l ih =>
    intro ys hys y hy
    rw [List.mapM_cons] at hys
    cases hfa : f a with
    | none => rw [hfa] at hys; cases hys
    | some b =>
      rw [hfa] at hys
      cases hml : l.mapM f with
      | none => rw [hml] at hys; cases hys
      | some bs =>
        rw [hml] at hys
        have hys2 : ys = b :: bs := by simpa using hys.symm
        subst hys2
        rcases List.mem_cons.1 hy with rfl | hyb
        · exact ⟨a, List.mem_cons_self a l, hfa⟩
        · obtain ⟨x, hx, hfx⟩ := ih bs hml y hyb
          exact ⟨x, List.mem_cons_of_mem a hx, hfx⟩

theorem getD_flatMap_const_len {α β : Type} (f : α → List β) (m : ℕ)
    (hm : ∀ a, (f a).length = m) (d : β) (da : α) :
    ∀ (l : List α) (i j : ℕ), i < l.length → j < m →
      (l.flatMap f).getD (i * m + j) d = (f (l.getD i da)).getD j d := by
  intro l
  induction l with
  | nil => intro i j hi _; cases hi
  | cons a l ih =>
    intro i j hi hj
    rw [List.flatMap_cons]
    cases i with
    | zero =>
      rw [Nat.zero_mul, Nat.zero_add, List.getD_append _ _ _ _ (by rw [hm a]; exact hj)]
      rfl
    | succ i =>
      have hlen : (f a).length ≤ (i + 1) * m + j := by
        rw [hm a]; calc m ≤ (i + 1) * m := Nat.le_mul_of_pos_left m (Nat.succ_pos i)
          _ ≤ (i + 1) * m + j := Nat.le_add_right _ _
      rw [List.getD_append_right _ _ _ _ hlen, hm a]
      have harith : (i + 1) * m + j - m = i * m + j := by
        have : (i + 1) * m = i * m + m := by ring
        omega
      rw [harith]
      exact ih i j (Nat.lt_of_succ_lt_succ hi) hj

theorem getD_set_ne {α : Type} (l : List α) (i j : ℕ) (a d : α) (h : i ≠ j) :
    (l.set i a).getD j d = l.getD j d := by
  rw [List.getD_eq_getElem?_getD, List.getElem?_set_ne h, ← List.getD_eq_getElem?_getD]

theorem getD_set_self {α : Type} (l : List α) (i : ℕ) (a d : α) (h : i < l.length) :
    (l.set i a).getD i d = a := by
  rw [List.getD_eq_getElem?_getD, List.getElem?_set_self', List.getElem?_eq_getElem h]
  rfl

theorem set_getD_self {α : Type} (l : List α) (i : ℕ) (d : α) (h : i < l.length) :
    l.set i (l.getD i d) = l := by
  apply List.ext_getElem?
  intro j
  rcases eq_or_ne i j with rfl | hne
  · rw [List.getElem?_set_self', List.getD_eq_getElem?_getD, List.getElem?_eq_getElem h]
    rfl
  · rw [List.getElem?_set_ne hne]

theorem getD_ne_getD_of_nodup (l : List ℕ) (hl : l.Nodup) (p q : ℕ)
    (hp : p < l.length) (hq : q < l.length) (hne : p ≠ q) (d : ℕ) :
    l.getD p d ≠ l.getD q d := by
  intro heq
  apply hne
  have hinj := List.nodup_iff_injective_get.1 hl
  have hpq : l.get ⟨p, hp⟩ = l.get ⟨q, hq⟩ := by
    have h1 : l.getD p d = l.get ⟨p, hp⟩ := by
      rw [List.getD_eq_getElem?_getD, List.getElem?_eq_getElem hp]; rfl
    have h2 : l.getD q d = l.get ⟨q, hq⟩ := by
      rw [List.getD_eq_getElem?_getD, List.getElem?_eq_getElem hq]; rfl
    rw [← h1, ← h2, heq]
  exact congrArg Fin.val (hinj hpq)

/-! ## Facts about the precomputed tables -/

theorem camelot_keys_length : camelot_keys.length = 24 := rfl

theorem harmonic_isSome :
    ∀ k1 ∈ camelot_keys, ∀ k2 ∈ camelot_keys, (harmonic_cost_from_keys k1 k2).isSome := by
  decide

theorem harmonic_self :
    ∀ k ∈ camelot_keys, harmonic_cost_from_keys k k = some EXACT_MATCH_COST := by
  decide

theorem keyId_lt : ∀ k ∈ camelot_keys, keyId k < 24 := by decide

theorem camelot_keys_getD_keyId :
    ∀ k ∈ camelot_keys, camelot_keys.getD (keyId k) [] = k := by decide

theorem shift_table_agree :
    ∀ k ∈ camelot_keys, ∀ s ∈ [(-1 : ℤ), 0, 1],
      (shift_camelot_key k s).isSome ∧
      (shift_camelot_key k s).getD [] ∈ camelot_keys ∧
      keyId ((shift_camelot_key k s).getD []) = shiftEntry k s := by
  decide

theorem shiftEntry_lt :
    ∀ k ∈ camelot_keys, ∀ s ∈ [(-1 : ℤ), 0, 1], shiftEntry k s < 24 := by decide

theorem indirect_cost_of_isSome (k1 k2 : CamStr) (h1 : k1 ∈ camelot_keys)
    (h2 : k2 ∈ camelot_keys) : (indirect_cost_of k1 k2).isSome := by
  unfold indirect_cost_of
  rw [Option.isSome_map']
  apply mapM_isSome_of_forall
  intro k3 hk3
  rcases Option.isSome_iff_exists.1 (harmonic_isSome k1 h1 k3 hk3) with ⟨a, hae⟩
  rcases Option.isSome_iff_exists.1 (harmonic_isSome k3 hk3 k2 h2) with ⟨b, hbe⟩
  rw [hae, hbe]
  rfl

theorem transition_eq_some (k1 k2 : CamStr) (h1 : k1 ∈ camelot_keys)
    (h2 : k2 ∈ camelot_keys) :
    ∃ d ind, transition_harmonic_costs k1 k2 = some (d, ind) ∧
      harmonic_cost_from_keys k1 k2 = some d ∧
      indirect_cost_of k1 k2 = some ind := by
  rcases Option.isSome_iff_exists.1 (harmonic_isSome k1 h1 k2 h2) with ⟨d, hd⟩
  rcases Option.isSome_iff_exists.1 (indirect_cost_of_isSome k1 k2 h1 h2) with ⟨ind, hind⟩
  refine ⟨d, ind, ?_, hd, hind⟩
  unfold transition_harmonic_costs
  rw [if_pos ⟨h1, h2⟩, hd, hind]

theorem transition_none_right (k1 : CamStr) :
    transition_harmonic_costs k1 ([] : CamStr) = none := by
  unfold transition_harmonic_costs
  rw [if_neg]
  rintro ⟨_, hmem⟩
  revert hmem
  decide

theorem indirect_le_direct_of_some (k1 k2 : CamStr) (h1 : k1 ∈ camelot_keys)
    (h2 : k2 ∈ camelot_keys) (d ind : ℚ)
    (htr : transition_harmonic_costs k1 k2 = some (d, ind)) : ind ≤ d := by
  rcases transition_eq_some k1 k2 h1 h2 with ⟨d', ind', htr', hd', hind'⟩
  have heq := htr'.symm.trans htr
  simp only [Option.some.injEq, Prod.mk.injEq] at heq
  obtain ⟨hde, hinde⟩ := heq
  unfold indirect_cost_of at hind'
  rcases Option.map_eq_some'.1 hind' with ⟨ys, hys, hmin⟩
  have hmem : d + EXACT_MATCH_COST ∈ ys := by
    apply mapM_mem_of_eq_some _ camelot_keys ys hys k2 h2
    rw [hd', hde, harmonic_self k2 h2]
  have hle := pyMin_le_of_mem ys (d + EXACT_MATCH_COST) hmem
  rw [hmin, hinde] at hle
  simpa [EXACT_MATCH_COST] using hle

theorem getD_map_lt {α β : Type} (f : α → β) (l : List α) (j : ℕ)
    (hj : j < l.length) (d : β) (d' : α) :
    (l.map f).getD j d = f (l.getD j d') := by
  rw [List.getD_eq_getElem?_getD, List.getElem?_map, List.getElem?_eq_getElem hj,
    List.getD_eq_getElem?_getD, List.getElem?_eq_getElem hj]
  rfl

theorem direct_flat_entry (i j : ℕ) (hi : i < 24) (hj : j < 24) :
    _direct_cost_flat.getD (i * 24 + j) 0 =
      ((transition_harmonic_costs (camelot_keys.getD i [])
        (camelot_keys.getD j [])).getD (0, 0)).1 := by
  unfold _direct_cost_flat
  rw [getD_flatMap_const_len _ 24
    (fun k1 => by rw [List.length_map]; rfl) 0 ([] : CamStr) camelot_keys i j
    (by rw [camelot_keys_length]; exact hi) hj]
  exact getD_map_lt _ camelot_keys j (by rw [camelot_keys_length]; exact hj) 0 []

theorem indirect_flat_entry (i j : ℕ) (hi : i < 24) (hj : j < 24) :
    _indirect_cost_flat.getD (i * 24 + j) 0 =
      ((transition_harmonic_costs (camelot_keys.getD i [])
        (camelot_keys.getD j [])).getD (0, 0)).2 := by
  unfold _indirect_cost_flat
  rw [getD_flatMap_const_len _ 24
    (fun k1 => by rw [List.length_map]; rfl) 0 ([] : CamStr) camelot_keys i j
    (by rw [camelot_keys_length]; exact hi) hj]
  exact getD_map_lt _ camelot_keys j (by rw [camelot_keys_length]; exact hj) 0 []

theorem getD_mem_of_lt {α : Type} (l : List α) (n : ℕ) (h : n < l.length) (d : α) :
    l.getD n d ∈ l := by
  rw [List.getD_eq_getElem?_getD, List.getElem?_eq_getElem h]
  simp [List.getElem_mem]

theorem shift_table_lookup (kid : ℕ) (hk : kid < 24) (s : ℤ)
    (hs : s = -1 ∨ s = 0 ∨ s = 1) :
    _shift_table.getD ((kid : ℤ) * 3 + (s + 1)).toNat 0 =
      shiftEntry (camelot_keys.getD kid []) s := by
  have hlen : ∀ k : CamStr,
      ([shiftEntry k (-1), shiftEntry k 0, shiftEntry k 1]).length = 3 := fun _ => rfl
  have hklen : kid < camelot_keys.length := by rw [camelot_keys_length]; exact hk
  rcases hs with rfl | rfl | rfl
  · have hidx : ((kid : ℤ) * 3 + (-1 + 1)).toNat = kid * 3 + 0 := by omega
    rw [hidx]
    unfold _shift_table
    rw [getD_flatMap_const_len _ 3 hlen 0 ([] : CamStr) camelot_keys kid 0 hklen (by omega)]
    rfl
  · have hidx : ((kid : ℤ) * 3 + (0 + 1)).toNat = kid * 3 + 1 := by omega
    rw [hidx]
    unfold _shift_table
    rw [getD_flatMap_const_len _ 3 hlen 0 ([] : CamStr) camelot_keys kid 1 hklen (by omega)]
    rfl
  · have hidx : ((kid : ℤ) * 3 + (1 + 1)).toNat = kid * 3 + 2 := by omega
    rw [hidx]
    unfold _shift_table
    rw [getD_flatMap_const_len _ 3 hlen 0 ([] : CamStr) camelot_keys kid 2 hklen (by omega)]
    rfl

/-- `base_key_ids = [KEY_TO_ID[k] for k in base_keys]` (mixer.py line 234). -/
def base_key_ids (base_keys : List CamStr) : List ℕ :=
  base_keys.map keyId

theorem tempo_cost_value_flip (b1 b2 : ℤ) :
    tempo_cost_value b1 b2 =
      (if (((|b1 - b2| : ℤ) : ℚ) > TEMPO_THRESHOLD) then TEMPO_PENALTY else 0) := by
  unfold tempo_cost_value
  by_cases hle : ((|b1 - b2| : ℤ) : ℚ) ≤ TEMPO_THRESHOLD
  · rw [if_pos hle, if_neg (not_lt.2 hle)]
  · rw [if_neg hle, if_pos (lt_of_not_ge hle)]

theorem tempo_cost_value_of_break (b1 b2 : ℤ)
    (hbreak : ((|b1 - b2| : ℤ) : ℚ) > TEMPO_BREAK_FACTOR * TEMPO_THRESHOLD) :
    tempo_cost_value b1 b2 = TEMPO_PENALTY := by
  unfold tempo_cost_value
  rw [if_neg]
  intro hle
  simp only [TEMPO_BREAK_FACTOR, TEMPO_THRESHOLD] at hbreak hle
  linarith

theorem fast_eq_ht (i1 i2 : ℕ) (s1 s2 : ℤ) (bpm_arr : List ℤ) (key_id_arr : List ℕ) :
    _fast_edge_cost i1 i2 s1 s2 bpm_arr key_id_arr =
      (_edge_ht i1 i2 s1 s2 bpm_arr key_id_arr).1 +
        TEMPO_COST_WEIGHT * (_edge_ht i1 i2 s1 s2 bpm_arr key_id_arr).2 := by
  simp only [_fast_edge_cost, _edge_ht]
  by_cases hbreak :
      ((|bpm_arr.getD i1 0 - bpm_arr.getD i2 0| : ℤ) : ℚ) > _TEMPO_BREAK_THRESHOLD
  · rw [if_pos hbreak, if_pos hbreak]
    ring
  · rw [if_neg hbreak, if_neg hbreak]

theorem components_eq_ht (bpms : List ℤ) (base_keys : List CamStr)
    (hkeys : ∀ k ∈ base_keys, k ∈ camelot_keys)
    (i1 i2 : ℕ) (h1 : i1 < base_keys.length) (h2 : i2 < base_keys.length)
    (s1 s2 : ℤ) (hs1 : s1 = -1 ∨ s1 = 0 ∨ s1 = 1) (hs2 : s2 = -1 ∨ s2 = 0 ∨ s2 = 1) :
    transition_cost_components bpms base_keys i1 i2 s1 s2 =
      some (_edge_ht i1 i2 s1 s2 bpms (base_key_ids base_keys)) := by
  have hk1mem : base_keys.getD i1 [] ∈ camelot_keys :=
    hkeys _ (getD_mem_of_lt base_keys i1 h1 [])
  have hk2mem : base_keys.getD i2 [] ∈ camelot_keys :=
    hkeys _ (getD_mem_of_lt base_keys i2 h2 [])
  have hs1l : s1 ∈ [(-1 : ℤ), 0, 1] := by rcases hs1 with rfl | rfl | rfl <;> simp
  have hs2l : s2 ∈ [(-1 : ℤ), 0, 1] := by rcases hs2 with rfl | rfl | rfl <;> simp
  obtain ⟨hsome1, hmem1, hid1⟩ := shift_table_agree _ hk1mem s1 hs1l
  obtain ⟨hsome2, hmem2, hid2⟩ := shift_table_agree _ hk2mem s2 hs2l
  rcases Option.isSome_iff_exists.1 hsome1 with ⟨ek1, hshift1⟩
  rcases Option.isSome_iff_exists.1 hsome2 with ⟨ek2, hshift2⟩
  rw [hshift1] at hmem1 hid1
  rw [hshift2] at hmem2 hid2
  simp only [Option.getD_some] at hmem1 hid1 hmem2 hid2
  obtain ⟨d, ind, htr, hd, hind⟩ := transition_eq_some ek1 ek2 hmem1 hmem2
  have hkid1 : (base_key_ids base_keys).getD i1 0 = keyId (base_keys.getD i1 []) := by
    unfold base_key_ids; exact getD_map_lt keyId base_keys i1 h1 0 []
  have hkid2 : (base_key_ids base_keys).getD i2 0 = keyId (base_keys.getD i2 []) := by
    unfold base_key_ids; exact getD_map_lt keyId base_keys i2 h2 0 []
  have htab1 :
      _shift_table.getD (((base_key_ids base_keys).getD i1 0 : ℤ) * 3 + (s1 + 1)).toNat 0 =
        keyId ek1 := by
    rw [hkid1, shift_table_lookup _ (keyId_lt _ hk1mem) s1 hs1,
      camelot_keys_getD_keyId _ hk1mem]
    exact hid1.symm
  have htab2 :
      _shift_table.getD (((base_key_ids base_keys).getD i2 0 : ℤ) * 3 + (s2 + 1)).toNat 0 =
        keyId ek2 := by
    rw [hkid2, shift_table_lookup _ (keyId_lt _ hk2mem) s2 hs2,
      camelot_keys_getD_keyId _ hk2mem]
    exact hid2.symm
  have hdir : _direct_cost_flat.getD (keyId ek1 * NUM_KEYS + keyId ek2) 0 = d := by
    show _direct_cost_flat.getD (keyId ek1 * 24 + keyId ek2) 0 = d
    rw [direct_flat_entry _ _ (keyId_lt _ hmem1) (keyId_lt _ hmem2),
      camelot_keys_getD_keyId _ hmem1, camelot_keys_getD_keyId _ hmem2, htr]
    rfl
  have hindir : _indirect_cost_flat.getD (keyId ek1 * NUM_KEYS + keyId ek2) 0 = ind := by
    show _indirect_cost_flat.getD (keyId ek1 * 24 + keyId ek2) 0 = ind
    rw [indirect_flat_entry _ _ (keyId_lt _ hmem1) (keyId_lt _ hmem2),
      camelot_keys_getD_keyId _ hmem1, camelot_keys_getD_keyId _ hmem2, htr]
    rfl
  simp only [transition_cost_components, _edge_ht, _TEMPO_BREAK_THRESHOLD]
  by_cases hbreak : ((|bpms.getD i1 0 - bpms.getD i2 0| : ℤ) : ℚ) >
      TEMPO_BREAK_FACTOR * TEMPO_THRESHOLD
  · rw [if_pos hbreak, if_pos hbreak, tempo_cost_value_of_break _ _ hbreak]
  · rw [if_neg hbreak, if_neg hbreak, hshift1, hshift2]
    simp only []
    rw [htr]
    simp only []
    rw [htab1, htab2, hdir, hindir, tempo_cost_value_flip]

theorem value_eq_fast (bpms : List ℤ) (base_keys : List CamStr)
    (hkeys : ∀ k ∈ base_keys, k ∈ camelot_keys)
    (i1 i2 : ℕ) (h1 : i1 < base_keys.length) (h2 : i2 < base_keys.length)
    (s1 s2 : ℤ) (hs1 : s1 = -1 ∨ s1 = 0 ∨ s1 = 1) (hs2 : s2 = -1 ∨ s2 = 0 ∨ s2 = 1) :
    transition_cost_value bpms base_keys i1 i2 s1 s2 =
      some (_fast_edge_cost i1 i2 s1 s2 bpms (base_key_ids base_keys)) := by
  unfold transition_cost_value
  rw [components_eq_ht bpms base_keys hkeys i1 i2 h1 h2 s1 s2 hs1 hs2,
    fast_eq_ht i1 i2 s1 s2 bpms (base_key_ids base_keys)]
  rfl

theorem edge_tables_spec (bpms : List ℤ) (base_keys : List CamStr)
    (hkeys : ∀ k ∈ base_keys, k ∈ camelot_keys)
    (i1 i2 : ℕ) (h1 : i1 < base_keys.length) (h2 : i2 < base_keys.length)
    (s1 s2 : ℤ) (hs1 : s1 = -1 ∨ s1 = 0 ∨ s1 = 1) (hs2 : s2 = -1 ∨ s2 = 0 ∨ s2 = 1)
    (hnb : ¬(((|bpms.getD i1 0 - bpms.getD i2 0| : ℤ) : ℚ) >
      TEMPO_BREAK_FACTOR * TEMPO_THRESHOLD)) :
    ∃ ek1 ek2 d ind : _,
      shift_camelot_key (base_keys.getD i1 []) s1 = some ek1 ∧
      shift_camelot_key (base_keys.getD i2 []) s2 = some ek2 ∧
      transition_harmonic_costs ek1 ek2 = some (d, ind) ∧
      _edge_ht i1 i2 s1 s2 bpms (base_key_ids base_keys) =
        ((if d = NON_HARMONIC_COST ∧ ind ≥ NON_HARMONIC_COST then
            d + 2 * NON_HARMONIC_COST else d),
         (if (((|bpms.getD i1 0 - bpms.getD i2 0| : ℤ) : ℚ) > TEMPO_THRESHOLD) then
            TEMPO_PENALTY else 0)) := by
  have hk1mem : base_keys.getD i1 [] ∈ camelot_keys :=
    hkeys _ (getD_mem_of_lt base_keys i1 h1 [])
  have hk2mem : base_keys.getD i2 [] ∈ camelot_keys :=
    hkeys _ (getD_mem_of_lt base_keys i2 h2 [])
  have hs1l : s1 ∈ [(-1 : ℤ), 0, 1] := by rcases hs1 with rfl | rfl | rfl <;> simp
  have hs2l : s2 ∈ [(-1 : ℤ), 0, 1] := by rcases hs2 with rfl | rfl | rfl <;> simp
  obtain ⟨hsome1, hmem1, hid1⟩ := shift_table_agree _ hk1mem s1 hs1l
  obtain ⟨hsome2, hmem2, hid2⟩ := shift_table_agree _ hk2mem s2 hs2l
  rcases Option.isSome_iff_exists.1 hsome1 with ⟨ek1, hshift1⟩
  rcases Option.isSome_iff_exists.1 hsome2 with ⟨ek2, hshift2⟩
  rw [hshift1] at hmem1 hid1
  rw [hshift2] at hmem2 hid2
  simp only [Option.getD_some] at hmem1 hid1 hmem2 hid2
  obtain ⟨d, ind, htr, hd, hind⟩ := transition_eq_some ek1 ek2 hmem1 hmem2
  have hkid1 : (base_key_ids base_keys).getD i1 0 = keyId (base_keys.getD i1 []) := by
    unfold base_key_ids; exact getD_map_lt keyId base_keys i1 h1 0 []
  have hkid2 : (base_key_ids base_keys).getD i2 0 = keyId (base_keys.getD i2 []) := by
    unfold base_key_ids; exact getD_map_lt keyId base_keys i2 h2 0 []
  have htab1 :
      _shift_table.getD (((base_key_ids base_keys).getD i1 0 : ℤ) * 3 + (s1 + 1)).toNat 0 =
        keyId ek1 := by
    rw [hkid1, shift_table_lookup _ (keyId_lt _ hk1mem) s1 hs1,
      camelot_keys_getD_keyId _ hk1mem]
    exact hid1.symm
  have htab2 :
      _shift_table.getD (((base_key_ids base_keys).getD i2 0 : ℤ) * 3 + (s2 + 1)).toNat 0 =
        keyId ek2 := by
    rw [hkid2, shift_table_lookup _ (keyId_lt _ hk2mem) s2 hs2,
      camelot_keys_getD_keyId _ hk2mem]
    exact hid2.symm
  have hdir : _direct_cost_flat.getD (keyId ek1 * NUM_KEYS + keyId ek2) 0 = d := by
    show _direct_cost_flat.getD (keyId ek1 * 24 + keyId ek2) 0 = d
    rw [direct_flat_entry _ _ (keyId_lt _ hmem1) (keyId_lt _ hmem2),
      camelot_keys_getD_keyId _ hmem1, camelot_keys_getD_keyId _ hmem2, htr]
    rfl
  have hindir : _indirect_cost_flat.getD (keyId ek1 * NUM_KEYS + keyId ek2) 0 = ind := by
    show _indirect_cost_flat.getD (keyId ek1 * 24 + keyId ek2) 0 = ind
    rw [indirect_flat_entry _ _ (keyId_lt _ hmem1) (keyId_lt _ hmem2),
      camelot_keys_getD_keyId _ hmem1, camelot_keys_getD_keyId _ hmem2, htr]
    rfl
  refine ⟨ek1, ek2, d, ind, hshift1, hshift2, htr, ?_⟩
  simp only [_edge_ht, _TEMPO_BREAK_THRESHOLD]
  rw [if_neg hnb, htab1, htab2, hdir, hindir]

/-- **C1**: in a tempo break (`|Δbpm| > TEMPO_BREAK_FACTOR · TEMPO_THRESHOLD`)
the edge cost is the fixed breakage value
`TEMPO_COST_WEIGHT · TEMPO_PENALTY · TEMPO_BREAK_FACTOR` with harmonic
component 0, independent of keys and shifts; otherwise it is `h + TEMPO_COST_WEIGHT · t`
where `h` is the direct harmonic cost of the two effective keys with the
`2 · NON_HARMONIC` surcharge exactly when `direct = NON_HARMONIC ∧ indirect ≥
NON_HARMONIC`, and `t = TEMPO_PENALTY` iff the BPM difference exceeds
`TEMPO_THRESHOLD`; and the fast flat-array evaluator agrees with the
string/dict evaluator on all such inputs. -/
theorem C1_edge_cost (bpms : List ℤ) (base_keys : List CamStr)
    (hkeys : ∀ k ∈ base_keys, k ∈ camelot_keys)
    (i1 i2 : ℕ) (h1 : i1 < base_keys.length) (h2 : i2 < base_keys.length)
    (s1 s2 : ℤ) (hs1 : s1 = -1 ∨ s1 = 0 ∨ s1 = 1) (hs2 : s2 = -1 ∨ s2 = 0 ∨ s2 = 1) :
    (transition_cost_value bpms base_keys i1 i2 s1 s2 =
      some (_fast_edge_cost i1 i2 s1 s2 bpms (base_key_ids base_keys))) ∧
    ((((|bpms.getD i1 0 - bpms.getD i2 0| : ℤ) : ℚ) >
        TEMPO_BREAK_FACTOR * TEMPO_THRESHOLD →
      _fast_edge_cost i1 i2 s1 s2 bpms (base_key_ids base_keys) =
        TEMPO_COST_WEIGHT * (TEMPO_PENALTY * TEMPO_BREAK_FACTOR) ∧
      transition_cost_components bpms base_keys i1 i2 s1 s2 =
        some (0, TEMPO_PENALTY * TEMPO_BREAK_FACTOR))) ∧
    (¬(((|bpms.getD i1 0 - bpms.getD i2 0| : ℤ) : ℚ) >
        TEMPO_BREAK_FACTOR * TEMPO_THRESHOLD) →
      ∃ ek1 ek2 direct indirect : _,
        shift_camelot_key (base_keys.getD i1 []) s1 = some ek1 ∧
        shift_camelot_key (base_keys.getD i2 []) s2 = some ek2 ∧
        transition_harmonic_costs ek1 ek2 = some (direct, indirect) ∧
        _fast_edge_cost i1 i2 s1 s2 bpms (base_key_ids base_keys) =
          (if direct = NON_HARMONIC_COST ∧ indirect ≥ NON_HARMONIC_COST then
            direct + 2 * NON_HARMONIC_COST else direct) +
          TEMPO_COST_WEIGHT *
            (if (((|bpms.getD i1 0 - bpms.getD i2 0| : ℤ) : ℚ) > TEMPO_THRESHOLD) then
              TEMPO_PENALTY else 0)) := by
  refine ⟨value_eq_fast bpms base_keys hkeys i1 i2 h1 h2 s1 s2 hs1 hs2, ?_, ?_⟩
  · intro hbreak
    constructor
    · simp only [_fast_edge_cost, _TEMPO_BREAK_THRESHOLD]
      rw [if_pos hbreak]
    · simp only [transition_cost_components]
      rw [if_pos hbreak, tempo_cost_value_of_break _ _ hbreak]
  · intro hnb
    obtain ⟨ek1, ek2, d, ind, hshift1, hshift2, htr, hht⟩ :=
      edge_tables_spec bpms base_keys hkeys i1 i2 h1 h2 s1 s2 hs1 hs2 hnb
    refine ⟨ek1, ek2, d, ind, hshift1, hshift2, htr, ?_⟩
    rw [fast_eq_ht i1 i2 s1 s2 bpms (base_key_ids base_keys), hht]

/-- Witness for C1 at a concrete input (two tracks, keys 8A and 8B,
bpm 120 and 126). -/
theorem C1_edge_cost_witness :
    (∀ k ∈ [cam "8A", cam "8B"], k ∈ camelot_keys) ∧
    ((0 : ℕ) < ([cam "8A", cam "8B"] : List CamStr).length ∧
      (1 : ℕ) < ([cam "8A", cam "8B"] : List CamStr).length) ∧
    ((transition_cost_value [120, 126] [cam "8A", cam "8B"] 0 1 0 0 =
      some (_fast_edge_cost 0 1 0 0 [120, 126] (base_key_ids [cam "8A", cam "8B"]))) ∧
    ((((|([120, 126] : List ℤ).getD 0 0 - ([120, 126] : List ℤ).getD 1 0| : ℤ) : ℚ) >
        TEMPO_BREAK_FACTOR * TEMPO_THRESHOLD →
      _fast_edge_cost 0 1 0 0 [120, 126] (base_key_ids [cam "8A", cam "8B"]) =
        TEMPO_COST_WEIGHT * (TEMPO_PENALTY * TEMPO_BREAK_FACTOR) ∧
      transition_cost_components [120, 126] [cam "8A", cam "8B"] 0 1 0 0 =
        some (0, TEMPO_PENALTY * TEMPO_BREAK_FACTOR))) ∧
    (¬(((|([120, 126] : List ℤ).getD 0 0 - ([120, 126] : List ℤ).getD 1 0| : ℤ) : ℚ) >
        TEMPO_BREAK_FACTOR * TEMPO_THRESHOLD) →
      ∃ ek1 ek2 direct indirect : _,
        shift_camelot_key (([cam "8A", cam "8B"] : List CamStr).getD 0 []) 0 = some ek1 ∧
        shift_camelot_key (([cam "8A", cam "8B"] : List CamStr).getD 1 []) 0 = some ek2 ∧
        transition_harmonic_costs ek1 ek2 = some (direct, indirect) ∧
        _fast_edge_cost 0 1 0 0 [120, 126] (base_key_ids [cam "8A", cam "8B"]) =
          (if direct = NON_HARMONIC_COST ∧ indirect ≥ NON_HARMONIC_COST then
            direct + 2 * NON_HARMONIC_COST else direct) +
          TEMPO_COST_WEIGHT *
            (if (((|([120, 126] : List ℤ).getD 0 0 - ([120, 126] : List ℤ).getD 1 0| : ℤ) : ℚ) >
                TEMPO_THRESHOLD) then
              TEMPO_PENALTY else 0))) :=
  ⟨by decide, ⟨by decide, by decide⟩,
    C1_edge_cost [120, 126] [cam "8A", cam "8B"] (by decide) 0 1 (by decide) (by decide)
      0 0 (by decide) (by decide)⟩

/-- **C7**: with the indirect table built as the minimum over all 24
intermediate keys of `direct[k1,k3] + direct[k3,k2]`, the inequality
`indirect ≤ direct` holds for every pair of key ids in `0..23` (the candidate
set includes `k3 = k2`, whose self-transition cost is `EXACT_MATCH = 0`) —
both in the `transition_harmonic_costs` dictionary and in the flat arrays. -/
theorem C7_indirect_le_direct (i j : ℕ) (hi : i < 24) (hj : j < 24) :
    _indirect_cost_flat.getD (i * 24 + j) 0 ≤ _direct_cost_flat.getD (i * 24 + j) 0 ∧
    ∀ d ind : ℚ,
      transition_harmonic_costs (camelot_keys.getD i []) (camelot_keys.getD j []) =
        some (d, ind) → ind ≤ d := by
  have hmi : camelot_keys.getD i [] ∈ camelot_keys :=
    getD_mem_of_lt _ i (by rw [camelot_keys_length]; exact hi) []
  have hmj : camelot_keys.getD j [] ∈ camelot_keys :=
    getD_mem_of_lt _ j (by rw [camelot_keys_length]; exact hj) []
  constructor
  · rw [direct_flat_entry i j hi hj, indirect_flat_entry i j hi hj]
    obtain ⟨d, ind, htr, _, _⟩ := transition_eq_some _ _ hmi hmj
    rw [htr]
    show ind ≤ d
    exact indirect_le_direct_of_some _ _ hmi hmj d ind htr
  · intro d ind htr
    exact indirect_le_direct_of_some _ _ hmi hmj d ind htr

/-- Witness for C7 at the concrete key-id pair `(0, 1)`. -/
theorem C7_indirect_le_direct_witness :
    (0 : ℕ) < 24 ∧ (1 : ℕ) < 24 ∧
    (_indirect_cost_flat.getD (0 * 24 + 1) 0 ≤ _direct_cost_flat.getD (0 * 24 + 1) 0 ∧
    ∀ d ind : ℚ,
      transition_harmonic_costs (camelot_keys.getD 0 []) (camelot_keys.getD 1 []) =
        some (d, ind) → ind ≤ d) :=
  ⟨by decide, by decide, C7_indirect_le_direct 0 1 (by decide) (by decide)⟩

/-- **C10**: `shift_camelot_key(s, 0)` returns `s` with leading `'0'`
characters stripped and performs no validation at all, so strings naming no
Camelot key ("13A", "5C") pass through unchanged, while shifting the same
strings by `+1` or `-1` raises a lookup error (modelled as `none`); on the 24
canonical keys, shifting by `+1` then `-1` returns the original key, and
shifting by 0 is the identity. -/
theorem C10_zero_shift_passthrough :
    (∀ s : CamStr, shift_camelot_key s 0 = some (lstrip0 s)) ∧
    (shift_camelot_key (cam "13A") 0 = some (cam "13A") ∧
     shift_camelot_key (cam "5C") 0 = some (cam "5C") ∧
     shift_camelot_key (cam "13A") 1 = none ∧
     shift_camelot_key (cam "13A") (-1) = none ∧
     shift_camelot_key (cam "5C") 1 = none ∧
     shift_camelot_key (cam "5C") (-1) = none) ∧
    (∀ k ∈ camelot_keys,
      (shift_camelot_key k 1).bind (fun k2 => shift_camelot_key k2 (-1)) = some k ∧
      shift_camelot_key k 0 = some k) :=
  ⟨fun _ => rfl, by decide, by decide⟩

/-- Witness for C10 at the concrete canonical key "1A". -/
theorem C10_zero_shift_passthrough_witness :
    (cam "1A") ∈ camelot_keys ∧
    ((shift_camelot_key (cam "1A") 1).bind (fun k2 => shift_camelot_key k2 (-1)) =
      some (cam "1A") ∧ shift_camelot_key (cam "1A") 0 = some (cam "1A")) :=
  ⟨by decide, C10_zero_shift_passthrough.2.2 (cam "1A") (by decide)⟩

/-- **C9 counterexample**: the claim states that `parse` fails with an error
on every malformed input (number out of `1..12`, wrong letter); but
`parse_camelot` performs no validation: "13A" and "5C" are both parsed
successfully. -/
theorem C9_counterexample :
    parse_camelot (cam "13A") = some (13, 'A') ∧
    parse_camelot (cam "5C") = some (5, 'C') := by decide

/-- **C9 (amended)**: `parse_camelot` performs no range or letter validation:
it returns `(int(prefix), last char)` for every string whose prefix (all but
the last character) Python `int()` accepts — including numbers out of `1..12`
("13A"), letters other than A/B ("5C"), and zero-padded ("05A"), signed
("+5A", "-5A"), whitespace-padded (" 5A") or underscore-separated ("1_3A")
prefixes — and it raises exactly on the empty string and on prefixes `int()`
rejects (empty, non-numeric, or a malformed sign/underscore shape such as
"_5A" or "5_A"). Stated for strings of characters below code point 128, where
the embedded `int()` is exact. -/
theorem C9_parse_camelot_spec :
    (∀ s : CamStr, (∀ c ∈ s, c.toNat < 128) →
      ((parse_camelot s).isSome = true ↔
        s ≠ [] ∧ (pyInt s.dropLast).isSome = true)) ∧
    parse_camelot (cam "13A") = some (13, 'A') ∧
    parse_camelot (cam "5C") = some (5, 'C') ∧
    parse_camelot (cam "05A") = some (5, 'A') ∧
    parse_camelot (cam "+5A") = some (5, 'A') ∧
    parse_camelot (cam "-5A") = some (-5, 'A') ∧
    parse_camelot (cam " 5A") = some (5, 'A') ∧
    parse_camelot (cam "1_3A") = some (13, 'A') ∧
    parse_camelot (cam "") = none ∧
    parse_camelot (cam "A") = none ∧
    parse_camelot (cam "xA") = none ∧
    parse_camelot (cam "+A") = none ∧
    parse_camelot (cam "_5A") = none ∧
    parse_camelot (cam "5_A") = none := by
  refine ⟨?_, by decide, by decide, by decide, by decide, by decide, by decide,
    by decide, by decide, by decide, by decide, by decide, by decide, by decide⟩
  intro s _
  cases s with
  | nil => simp [parse_camelot]
  | cons c cs =>
    unfold parse_camelot
    rw [Option.isSome_map']
    simp

/-- Witness for the universally quantified part of C9_parse_camelot_spec at
the concrete string "13A". -/
theorem C9_parse_camelot_spec_witness :
    (∀ c ∈ cam "13A", c.toNat < 128) ∧
    ((parse_camelot (cam "13A")).isSome = true ↔
      cam "13A" ≠ [] ∧ (pyInt (cam "13A").dropLast).isSome = true) :=
  ⟨by decide, C9_parse_camelot_spec.1 (cam "13A") (by decide)⟩

/-- **C8 counterexample**: an input consisting of exactly one valid track is
NOT rejected at validation — the source only raises when zero valid tracks
remain, so the single-track input passes into the optimizer. -/
theorem C8_counterexample :
    validated_mix_tracks [⟨120, cam "8A"⟩] = some [(120, cam "8A")] := by decide

/-- **C8 (amended)**: provided no row has a nonempty all-whitespace comment
field (on such a row `comments.split()[0]` raises `IndexError` inside the
filter loop, before the size validation is ever reached — last conjunct shows
this crash on a two-row input whose second row is valid), the validation
before optimization rejects exactly the inputs with zero valid tracks: it
succeeds iff some row carries a nonzero BPM and a valid extracted key. In
particular an input with exactly one valid track passes validation, so the
`n ≥ 2` requirement of the spec is not enforced. Stated for comment fields of
characters below code point 128, where the embedded `str.split()` is
exact. -/
theorem C8_validation_spec (rows : List MixRow)
    (hnc : ∀ r ∈ rows, extract_key_from_comments r.comments ≠ none)
    (hascii : ∀ r ∈ rows, ∀ c ∈ r.comments, c.toNat < 128) :
    ((validated_mix_tracks rows).isSome = true ↔
      ∃ r ∈ rows, r.bpm ≠ 0 ∧
        ∃ k, extract_key_from_comments r.comments = some (some k) ∧ k ∈ valid_keys) ∧
    validated_mix_tracks [⟨120, cam " "⟩, ⟨120, cam "8A"⟩] = none := by
  refine ⟨?_, by decide⟩
  constructor
  · intro hs
    unfold validated_mix_tracks at hs
    cases hmd : mix_tracks_data rows with
    | none => rw [hmd] at hs; simp at hs
    | some d =>
      rw [hmd] at hs
      simp only [Option.some_bind] at hs
      have h0 : d.length ≠ 0 := by
        intro h
        rw [if_pos h] at hs
        simp at hs
      obtain ⟨z, hz⟩ := List.exists_mem_of_ne_nil d (by
        intro h
        exact h0 (by rw [h]; rfl))
      unfold mix_tracks_data at hmd
      obtain ⟨l, hl, hfl⟩ := Option.map_eq_some'.1 hmd
      rw [← hfl] at hz
      obtain ⟨o, hol, ho⟩ := List.mem_filterMap.1 hz
      have ho2 : o = some z := ho
      subst ho2
      obtain ⟨r, hr, hrt⟩ := mapM_mem_inv row_track rows l hl (some z) hol
      unfold row_track at hrt
      refine ⟨r, hr, ?_⟩
      cases hek : extract_key_from_comments r.comments with
      | none =>
        rw [hek] at hrt
        cases hrt
      | some key =>
        rw [hek] at hrt
        cases key with
        | none =>
          have hrt2 : (if r.bpm = 0 then (some none : Option (Option (ℤ × CamStr)))
              else some none) = some (some z) := hrt
          have hfalse : (none : Option (ℤ × CamStr)) = some z := by
            by_cases hb : r.bpm = 0
            · rw [if_pos hb] at hrt2; exact Option.some_inj.mp hrt2
            · rw [if_neg hb] at hrt2; exact Option.some_inj.mp hrt2
          cases hfalse
        | some k =>
          have hrt2 : (if r.bpm = 0 then (some none : Option (Option (ℤ × CamStr)))
              else if k ∈ valid_keys then some (some (r.bpm, k)) else some none) =
                some (some z) := hrt
          by_cases hb : r.bpm = 0
          · rw [if_pos hb] at hrt2
            cases Option.some_inj.mp hrt2
          · by_cases hv : k ∈ valid_keys
            · exact ⟨hb, k, rfl, hv⟩
            · rw [if_neg hb, if_neg hv] at hrt2
              cases Option.some_inj.mp hrt2
  · rintro ⟨r, hr, hbpm, k, hk, hv⟩
    have hms : ∀ x ∈ rows, (row_track x).isSome = true := by
      intro x hx
      have hne := hnc x hx
      unfold row_track
      cases hek : extract_key_from_comments x.comments with
      | none => exact absurd hek hne
      | some key =>
        cases key with
        | none =>
          show (if x.bpm = 0 then (some none : Option (Option (ℤ × CamStr)))
            else some none).isSome = true
          by_cases hb : x.bpm = 0
          · rw [if_pos hb]; rfl
          · rw [if_neg hb]; rfl
        | some k2 =>
          show (if x.bpm = 0 then (some none : Option (Option (ℤ × CamStr)))
            else if k2 ∈ valid_keys then some (some (x.bpm, k2))
              else some none).isSome = true
          by_cases hb : x.bpm = 0
          · rw [if_pos hb]; rfl
          · by_cases hv2 : k2 ∈ valid_keys
            · rw [if_neg hb, if_pos hv2]; rfl
            · rw [if_neg hb, if_neg hv2]; rfl
    have hisSome : (rows.mapM row_track).isSome :=
      mapM_isSome_of_forall row_track rows hms
    obtain ⟨l, hl⟩ := Option.isSome_iff_exists.1 hisSome
    have hsome : row_track r = some (some (r.bpm, k)) := by
      unfold row_track
      rw [hk]
      show (if r.bpm = 0 then (some none : Option (Option (ℤ × CamStr)))
        else if k ∈ valid_keys then some (some (r.bpm, k)) else some none) =
          some (some (r.bpm, k))
      rw [if_neg hbpm, if_pos hv]
    have hmem : (some (r.bpm, k) : Option (ℤ × CamStr)) ∈ l :=
      mapM_mem_of_eq_some row_track rows l hl r hr (some (r.bpm, k)) hsome
    have hzd : (r.bpm, k) ∈ l.filterMap id :=
      List.mem_filterMap.2 ⟨some (r.bpm, k), hmem, rfl⟩
    have hmd : mix_tracks_data rows = some (l.filterMap id) := by
      unfold mix_tracks_data
      rw [hl]
      rfl
    unfold validated_mix_tracks
    rw [hmd]
    simp only [Option.some_bind]
    rw [if_neg (by
      intro h0
      rw [List.length_eq_zero] at h0
      rw [h0] at hzd
      cases hzd)]
    rfl

/-- Witness for C8_validation_spec at a concrete single-valid-track input. -/
theorem C8_validation_spec_witness :
    (∀ r ∈ [(⟨120, cam "8A"⟩ : MixRow)],
        extract_key_from_comments r.comments ≠ none) ∧
    (((validated_mix_tracks [⟨120, cam "8A"⟩]).isSome = true ↔
      ∃ r ∈ [(⟨120, cam "8A"⟩ : MixRow)], r.bpm ≠ 0 ∧
        ∃ k, extract_key_from_comments r.comments = some (some k) ∧
          k ∈ valid_keys) ∧
     validated_mix_tracks [⟨120, cam " "⟩, ⟨120, cam "8A"⟩] = none) :=
  ⟨by decide, C8_validation_spec [⟨120, cam "8A"⟩] (by decide) (by decide)⟩

/-! ## Structural lemmas for the swap step and shift re-optimization -/

theorem mem_edge_positions (a b n j : ℕ) :
    j ∈ _edge_positions_for_swap a b n ↔
      ((0 < a ∧ j = a - 1) ∨ (a < n - 1 ∧ j = a) ∨
       (0 < b ∧ j = b - 1) ∨ (b < n - 1 ∧ j = b)) := by
  unfold _edge_positions_for_swap
  by_cases h1 : 0 < a <;> by_cases h2 : a < n - 1 <;>
    by_cases h3 : 0 < b <;> by_cases h4 : b < n - 1 <;>
    simp [h1, h2, h3, h4] <;> tauto

theorem swap_getD_a (order : List ℕ) (a b : ℕ) (ha : a < order.length) (hab : a ≠ b) :
    ((order.set a (order.getD b 0)).set b (order.getD a 0)).getD a 0 = order.getD b 0 := by
  rw [getD_set_ne _ b a _ _ (Ne.symm hab), getD_set_self _ a _ _ ha]

theorem swap_getD_b (order : List ℕ) (a b : ℕ) (hb : b < order.length) :
    ((order.set a (order.getD b 0)).set b (order.getD a 0)).getD b 0 = order.getD a 0 := by
  rw [getD_set_self _ b _ _ (by rw [List.length_set]; exact hb)]

theorem swap_getD_other (order : List ℕ) (a b j : ℕ) (hja : j ≠ a) (hjb : j ≠ b) :
    ((order.set a (order.getD b 0)).set b (order.getD a 0)).getD j 0 = order.getD j 0 := by
  rw [getD_set_ne _ b j _ _ (Ne.symm hjb), getD_set_ne _ a j _ _ (Ne.symm hja)]

theorem foldl_step_snd_mem (f : ℤ → ℚ) (cands : List ℤ) :
    ∀ init : ℚ × ℤ,
      (cands.foldl (fun best s => if f s < best.1 then (f s, s) else best) init).2 = init.2 ∨
      (cands.foldl (fun best s => if f s < best.1 then (f s, s) else best) init).2 ∈ cands := by
  induction cands with
  | nil => intro init; left; rfl
  | cons c cs ih =>
    intro init
    rw [List.foldl_cons]
    rcases ih (if f c < init.1 then (f c, c) else init) with h | h
    · by_cases hc : f c < init.1
      · right
        rw [h, if_pos hc]
        exact List.mem_cons_self c cs
      · left
        rw [h, if_neg hc]
    · right
      exact List.mem_cons_of_mem c h

/-- The shift selected by the candidate loop of `_optimize_shift_fast`
(mixer.py lines 390-401), named so that the mutation can be stated as a
single `List.set`. -/
def _osf_choice (order : List ℕ) (shifts : List ℤ) (pos : ℕ)
    (bpm_arr : List ℤ) (key_id_arr : List ℕ) : ℤ :=
  let i := order.getD pos 0
  let best0 :=
    (if 0 < pos then
      _fast_edge_cost (order.getD (pos - 1) 0) i
        (shifts.getD (order.getD (pos - 1) 0) 0) (shifts.getD i 0) bpm_arr key_id_arr
    else 0) +
    (if pos < order.length - 1 then
      _fast_edge_cost i (order.getD (pos + 1) 0)
        (shifts.getD i 0) (shifts.getD (order.getD (pos + 1) 0) 0) bpm_arr key_id_arr
    else 0)
  ([(-1 : ℤ), 0, 1].foldl
    (fun (best : ℚ × ℤ) s =>
      let c := _local_fast_cost order shifts pos s bpm_arr key_id_arr
      if c < best.1 then (c, s) else best)
    (best0, shifts.getD i 0)).2

theorem optimize_shift_fast_eq_set (order : List ℕ) (shifts : List ℤ) (pos : ℕ)
    (bpm_arr : List ℤ) (key_id_arr : List ℕ) :
    _optimize_shift_fast order shifts pos bpm_arr key_id_arr =
      shifts.set (order.getD pos 0) (_osf_choice order shifts pos bpm_arr key_id_arr) := rfl

theorem osf_choice_cases (order : List ℕ) (shifts : List ℤ) (pos : ℕ)
    (bpm_arr : List ℤ) (key_id_arr : List ℕ) :
    _osf_choice order shifts pos bpm_arr key_id_arr = -1 ∨
    _osf_choice order shifts pos bpm_arr key_id_arr = 0 ∨
    _osf_choice order shifts pos bpm_arr key_id_arr = 1 ∨
    _osf_choice order shifts pos bpm_arr key_id_arr =
      shifts.getD (order.getD pos 0) 0 := by
  unfold _osf_choice
  rcases foldl_step_snd_mem
      (fun s => _local_fast_cost order shifts pos s bpm_arr key_id_arr)
      [(-1 : ℤ), 0, 1] _ with h | h
  · right; right; right; exact h
  · simp only [List.mem_cons, List.not_mem_nil, or_false] at h
    tauto

theorem validShifts_getD {n : ℕ} {l : List ℤ} (h : ValidShifts n l) (j : ℕ) :
    l.getD j 0 = -1 ∨ l.getD j 0 = 0 ∨ l.getD j 0 = 1 := by
  by_cases hj : j < l.length
  · exact h.2 _ (getD_mem_of_lt l j hj 0)
  · right; left
    rw [List.getD_eq_getElem?_getD, List.getElem?_eq_none (by omega)]
    rfl

theorem edge_unchanged_outside (a b n : ℕ) (hab : a ≠ b) (han : a < n) (hbn : b < n)
    (order : List ℕ) (shifts : List ℤ) (bpm_arr : List ℤ) (key_id_arr : List ℕ)
    (hlen : order.length = n) (hnd : order.Nodup) (hbound : ∀ x ∈ order, x < n)
    (j : ℕ) (hj : j < n - 1) (hj_not : j ∉ _edge_positions_for_swap a b n) :
    _fast_edge_cost
      (((order.set a (order.getD b 0)).set b (order.getD a 0)).getD j 0)
      (((order.set a (order.getD b 0)).set b (order.getD a 0)).getD (j + 1) 0)
      ((_optimize_shift_fast ((order.set a (order.getD b 0)).set b (order.getD a 0))
          (_optimize_shift_fast ((order.set a (order.getD b 0)).set b (order.getD a 0))
            shifts a bpm_arr key_id_arr) b bpm_arr key_id_arr).getD
        (((order.set a (order.getD b 0)).set b (order.getD a 0)).getD j 0) 0)
      ((_optimize_shift_fast ((order.set a (order.getD b 0)).set b (order.getD a 0))
          (_optimize_shift_fast ((order.set a (order.getD b 0)).set b (order.getD a 0))
            shifts a bpm_arr key_id_arr) b bpm_arr key_id_arr).getD
        (((order.set a (order.getD b 0)).set b (order.getD a 0)).getD (j + 1) 0) 0)
      bpm_arr key_id_arr =
    _fast_edge_cost (order.getD j 0) (order.getD (j + 1) 0)
      (shifts.getD (order.getD j 0) 0) (shifts.getD (order.getD (j + 1) 0) 0)
      bpm_arr key_id_arr := by
  rw [mem_edge_positions] at hj_not
  push_neg at hj_not
  have hja : j ≠ a := by
    by_cases han1 : a < n - 1
    · exact hj_not.2.1 han1
    · omega
  have hjb : j ≠ b := by
    by_cases hbn1 : b < n - 1
    · exact hj_not.2.2.2 hbn1
    · omega
  have hj1a : j + 1 ≠ a := by
    by_cases ha0 : 0 < a
    · have := hj_not.1 ha0
      omega
    · omega
  have hj1b : j + 1 ≠ b := by
    by_cases hb0 : 0 < b
    · have := hj_not.2.2.1 hb0
      omega
    · omega
  have ha : a < order.length := by omega
  have hb : b < order.length := by omega
  have horder1j := swap_getD_other order a b j hja hjb
  have horder1j1 := swap_getD_other order a b (j + 1) hj1a hj1b
  have hi1 := swap_getD_a order a b ha hab
  have hi2 := swap_getD_b order a b hb
  rw [optimize_shift_fast_eq_set, optimize_shift_fast_eq_set]
  rw [hi1, hi2, horder1j, horder1j1]
  have hj_lt : j < order.length := by omega
  have hj1_lt : j + 1 < order.length := by omega
  have hoj_ne_oa : order.getD j 0 ≠ order.getD a 0 :=
    getD_ne_getD_of_nodup order hnd j a hj_lt ha hja 0
  have hoj_ne_ob : order.getD j 0 ≠ order.getD b 0 :=
    getD_ne_getD_of_nodup order hnd j b hj_lt hb hjb 0
  have hoj1_ne_oa : order.getD (j + 1) 0 ≠ order.getD a 0 :=
    getD_ne_getD_of_nodup order hnd (j + 1) a hj1_lt ha hj1a 0
  have hoj1_ne_ob : order.getD (j + 1) 0 ≠ order.getD b 0 :=
    getD_ne_getD_of_nodup order hnd (j + 1) b hj1_lt hb hj1b 0
  rw [getD_set_ne _ _ _ _ _ (Ne.symm hoj_ne_oa), getD_set_ne _ _ _ _ _ (Ne.symm hoj_ne_ob),
    getD_set_ne _ _ _ _ _ (Ne.symm hoj1_ne_oa), getD_set_ne _ _ _ _ _ (Ne.symm hoj1_ne_ob)]

/-- **C5 counterexample**: for the adjacent swap `a = 0, b = 1` in a 2-track
mix, the affected-edge set has a single element, not 3 as claimed. -/
theorem C5_counterexample :
    (0 : ℕ) < 1 ∧ (1 : ℕ) < 2 ∧
    (_edge_positions_for_swap 0 1 2).card = 1 ∧
    (_edge_positions_for_swap 0 1 2).card ≠ 3 := by decide

/-- **C5 (amended)**: `affected_edges(a, b, n)` equals
`{a-1, a, b-1, b} ∩ [0, n-2]` (duplicates and out-of-range removed) and has at
most 4 elements; it has exactly 3 elements when `a` and `b` are adjacent AND
interior (`0 < a` and `b < n-1`) — boundary-adjacent swaps yield fewer.
Moreover, after swapping positions `a` and `b` and re-optimizing the shifts at
`a` and `b`, every edge position outside the set has unchanged edge cost. -/
theorem C5_affected_edges (a b n : ℕ) (hab : a < b) (hbn : b < n) :
    (_edge_positions_for_swap a b n =
      (Finset.range (n - 1)).filter
        (fun j => j + 1 = a ∨ j = a ∨ j + 1 = b ∨ j = b)) ∧
    (_edge_positions_for_swap a b n).card ≤ 4 ∧
    (b = a + 1 → 0 < a → b < n - 1 → (_edge_positions_for_swap a b n).card = 3) ∧
    (∀ (order : List ℕ) (shifts : List ℤ) (bpm_arr : List ℤ) (key_id_arr : List ℕ),
      order.length = n → shifts.length = n → order.Nodup → (∀ x ∈ order, x < n) →
      ∀ j, j < n - 1 → j ∉ _edge_positions_for_swap a b n →
        _fast_edge_cost
          (((order.set a (order.getD b 0)).set b (order.getD a 0)).getD j 0)
          (((order.set a (order.getD b 0)).set b (order.getD a 0)).getD (j + 1) 0)
          ((_optimize_shift_fast ((order.set a (order.getD b 0)).set b (order.getD a 0))
              (_optimize_shift_fast ((order.set a (order.getD b 0)).set b (order.getD a 0))
                shifts a bpm_arr key_id_arr) b bpm_arr key_id_arr).getD
            (((order.set a (order.getD b 0)).set b (order.getD a 0)).getD j 0) 0)
          ((_optimize_shift_fast ((order.set a (order.getD b 0)).set b (order.getD a 0))
              (_optimize_shift_fast ((order.set a (order.getD b 0)).set b (order.getD a 0))
                shifts a bpm_arr key_id_arr) b bpm_arr key_id_arr).getD
            (((order.set a (order.getD b 0)).set b (order.getD a 0)).getD (j + 1) 0) 0)
          bpm_arr key_id_arr =
        _fast_edge_cost (order.getD j 0) (order.getD (j + 1) 0)
          (shifts.getD (order.getD j 0) 0) (shifts.getD (order.getD (j + 1) 0) 0)
          bpm_arr key_id_arr) := by
  refine ⟨?_, ?_, ?_, ?_⟩
  · ext j
    rw [mem_edge_positions, Finset.mem_filter, Finset.mem_range]
    omega
  · unfold _edge_positions_for_swap
    refine le_trans (Finset.card_union_le _ _) ?_
    have h1 : ∀ (c : Prop) [Decidable c] (x : ℕ),
        ((if c then ({x} : Finset ℕ) else ∅) : Finset ℕ).card ≤ 1 := by
      intro c _ x
      split_ifs <;> simp
    refine le_trans (add_le_add (Finset.card_union_le _ _) (Finset.card_union_le _ _)) ?_
    have := h1 (0 < a) (a - 1)
    have := h1 (a < n - 1) a
    have := h1 (0 < b) (b - 1)
    have := h1 (b < n - 1) b
    omega
  · rintro rfl ha hbn1
    have hset : _edge_positions_for_swap a (a + 1) n = {a - 1, a, a + 1} := by
      ext j
      rw [mem_edge_positions]
      simp only [Finset.mem_insert, Finset.mem_singleton]
      omega
    rw [hset]
    rw [Finset.card_insert_of_not_mem
        (by simp only [Finset.mem_insert, Finset.mem_singleton]; omega),
      Finset.card_insert_of_not_mem (by simp only [Finset.mem_singleton]; omega),
      Finset.card_singleton]
  · intro order shifts bpm_arr key_id_arr hlen hslen hnd hbound j hj hj_not
    exact edge_unchanged_outside a b n (by omega) (by omega) hbn order shifts
      bpm_arr key_id_arr hlen hnd hbound j hj hj_not

/-- Witness for the amended C5 at the concrete interior adjacent swap
`a = 1, b = 2, n = 4`. -/
theorem C5_affected_edges_witness :
    (1 : ℕ) < 2 ∧ (2 : ℕ) < 4 ∧
    ((_edge_positions_for_swap 1 2 4 =
      (Finset.range (4 - 1)).filter
        (fun j => j + 1 = 1 ∨ j = 1 ∨ j + 1 = 2 ∨ j = 2)) ∧
    (_edge_positions_for_swap 1 2 4).card ≤ 4 ∧
    (2 = 1 + 1 → 0 < 1 → 2 < 4 - 1 → (_edge_positions_for_swap 1 2 4).card = 3) ∧
    (∀ (order : List ℕ) (shifts : List ℤ) (bpm_arr : List ℤ) (key_id_arr : List ℕ),
      order.length = 4 → shifts.length = 4 → order.Nodup → (∀ x ∈ order, x < 4) →
      ∀ j, j < 4 - 1 → j ∉ _edge_positions_for_swap 1 2 4 →
        _fast_edge_cost
          (((order.set 1 (order.getD 2 0)).set 2 (order.getD 1 0)).getD j 0)
          (((order.set 1 (order.getD 2 0)).set 2 (order.getD 1 0)).getD (j + 1) 0)
          ((_optimize_shift_fast ((order.set 1 (order.getD 2 0)).set 2 (order.getD 1 0))
              (_optimize_shift_fast ((order.set 1 (order.getD 2 0)).set 2 (order.getD 1 0))
                shifts 1 bpm_arr key_id_arr) 2 bpm_arr key_id_arr).getD
            (((order.set 1 (order.getD 2 0)).set 2 (order.getD 1 0)).getD j 0) 0)
          ((_optimize_shift_fast ((order.set 1 (order.getD 2 0)).set 2 (order.getD 1 0))
              (_optimize_shift_fast ((order.set 1 (order.getD 2 0)).set 2 (order.getD 1 0))
                shifts 1 bpm_arr key_id_arr) 2 bpm_arr key_id_arr).getD
            (((order.set 1 (order.getD 2 0)).set 2 (order.getD 1 0)).getD (j + 1) 0) 0)
          bpm_arr key_id_arr =
        _fast_edge_cost (order.getD j 0) (order.getD (j + 1) 0)
          (shifts.getD (order.getD j 0) 0) (shifts.getD (order.getD (j + 1) 0) 0)
          bpm_arr key_id_arr)) :=
  ⟨by decide, by decide, C5_affected_edges 1 2 4 (by decide) (by decide)⟩

theorem foldl_step_spec (c : ℤ → ℚ) (cands : List ℤ) :
    ∀ init : ℚ × ℤ, init.1 = c init.2 →
      (cands.foldl (fun (best : ℚ × ℤ) s => if c s < best.1 then (c s, s) else best)
          init).1 =
        c ((cands.foldl (fun (best : ℚ × ℤ) s => if c s < best.1 then (c s, s) else best)
          init).2) ∧
      (cands.foldl (fun (best : ℚ × ℤ) s => if c s < best.1 then (c s, s) else best)
          init).1 ≤ init.1 ∧
      ∀ s ∈ cands,
        (cands.foldl (fun (best : ℚ × ℤ) s => if c s < best.1 then (c s, s) else best)
          init).1 ≤ c s := by
  induction cands with
  | nil =>
    intro init h
    exact ⟨h, le_refl _, by simp⟩
  | cons x xs ih =>
    intro init h
    rw [List.foldl_cons]
    by_cases hx : c x < init.1
    · rw [if_pos hx]
      obtain ⟨ha, hb, hc⟩ := ih (c x, x) rfl
      refine ⟨ha, le_trans hb (le_of_lt hx), ?_⟩
      intro s hs
      rcases List.mem_cons.1 hs with rfl | hs'
      · exact hb
      · exact hc s hs'
    · rw [if_neg hx]
      obtain ⟨ha, hb, hc⟩ := ih init h
      refine ⟨ha, hb, ?_⟩
      intro s hs
      rcases List.mem_cons.1 hs with rfl | hs'
      · exact le_trans hb (le_of_not_lt hx)
      · exact hc s hs'

theorem foldl_step_tie (c : ℤ → ℚ) (cands : List ℤ) :
    ∀ init : ℚ × ℤ, (∀ s ∈ cands, init.1 ≤ c s) →
      cands.foldl (fun (best : ℚ × ℤ) s => if c s < best.1 then (c s, s) else best)
        init = init := by
  induction cands with
  | nil => intro init _; rfl
  | cons x xs ih =>
    intro init hle
    rw [List.foldl_cons,
      if_neg (not_lt.2 (hle x (List.mem_cons_self x xs)))]
    exact ih init (fun s hs => hle s (List.mem_cons_of_mem x hs))

theorem local_cost_at_eq_fast (bpms : List ℤ) (base_keys : List CamStr)
    (hkeys : ∀ k ∈ base_keys, k ∈ camelot_keys)
    (order : List ℕ) (shifts : List ℤ) (pos : ℕ)
    (hpos : pos < order.length)
    (horder : ∀ x ∈ order, x < base_keys.length)
    (hvalid : ∀ j : ℕ, shifts.getD j 0 = -1 ∨ shifts.getD j 0 = 0 ∨ shifts.getD j 0 = 1) :
    local_cost_at bpms base_keys order shifts pos =
      some ((if 0 < pos then
          _fast_edge_cost (order.getD (pos - 1) 0) (order.getD pos 0)
            (shifts.getD (order.getD (pos - 1) 0) 0) (shifts.getD (order.getD pos 0) 0)
            bpms (base_key_ids base_keys)
        else 0) +
        (if pos < order.length - 1 then
          _fast_edge_cost (order.getD pos 0) (order.getD (pos + 1) 0)
            (shifts.getD (order.getD pos 0) 0) (shifts.getD (order.getD (pos + 1) 0) 0)
            bpms (base_key_ids base_keys)
        else 0)) := by
  have hipos : order.getD pos 0 < base_keys.length :=
    horder _ (getD_mem_of_lt order pos hpos 0)
  simp only [local_cost_at]
  by_cases h0 : 0 < pos
  · have hprev : order.getD (pos - 1) 0 < base_keys.length :=
      horder _ (getD_mem_of_lt order (pos - 1) (by omega) 0)
    by_cases hend : pos < order.length - 1
    · have hnext : order.getD (pos + 1) 0 < base_keys.length :=
        horder _ (getD_mem_of_lt order (pos + 1) (by omega) 0)
      simp only [if_pos h0, if_pos hend,
        value_eq_fast bpms base_keys hkeys (order.getD (pos - 1) 0) (order.getD pos 0)
          hprev hipos (shifts.getD (order.getD (pos - 1) 0) 0)
          (shifts.getD (order.getD pos 0) 0)
          (hvalid (order.getD (pos - 1) 0)) (hvalid (order.getD pos 0)),
        value_eq_fast bpms base_keys hkeys (order.getD pos 0) (order.getD (pos + 1) 0)
          hipos hnext (shifts.getD (order.getD pos 0) 0)
          (shifts.getD (order.getD (pos + 1) 0) 0)
          (hvalid (order.getD pos 0)) (hvalid (order.getD (pos + 1) 0))]
      rfl
    · simp only [if_pos h0, if_neg hend,
        value_eq_fast bpms base_keys hkeys (order.getD (pos - 1) 0) (order.getD pos 0)
          hprev hipos (shifts.getD (order.getD (pos - 1) 0) 0)
          (shifts.getD (order.getD pos 0) 0)
          (hvalid (order.getD (pos - 1) 0)) (hvalid (order.getD pos 0))]
      rfl
  · by_cases hend : pos < order.length - 1
    · have hnext : order.getD (pos + 1) 0 < base_keys.length :=
        horder _ (getD_mem_of_lt order (pos + 1) (by omega) 0)
      simp only [if_neg h0, if_pos hend,
        value_eq_fast bpms base_keys hkeys (order.getD pos 0) (order.getD (pos + 1) 0)
          hipos hnext (shifts.getD (order.getD pos 0) 0)
          (shifts.getD (order.getD (pos + 1) 0) 0)
          (hvalid (order.getD pos 0)) (hvalid (order.getD (pos + 1) 0))]
      rfl
    · simp only [if_neg h0, if_neg hend]
      rfl

theorem local_cost_at_set_eq (bpms : List ℤ) (base_keys : List CamStr)
    (hkeys : ∀ k ∈ base_keys, k ∈ camelot_keys)
    (order : List ℕ) (shifts : List ℤ) (pos : ℕ)
    (hpos : pos < order.length)
    (horder : ∀ x ∈ order, x < base_keys.length)
    (hvalid : ∀ j : ℕ, shifts.getD j 0 = -1 ∨ shifts.getD j 0 = 0 ∨ shifts.getD j 0 = 1)
    (hi : order.getD pos 0 < shifts.length)
    (s : ℤ) (hs : s = -1 ∨ s = 0 ∨ s = 1) :
    local_cost_at bpms base_keys order (shifts.set (order.getD pos 0) s) pos =
      some (_local_fast_cost order shifts pos s bpms (base_key_ids base_keys)) := by
  have hvalid' : ∀ j : ℕ,
      (shifts.set (order.getD pos 0) s).getD j 0 = -1 ∨
      (shifts.set (order.getD pos 0) s).getD j 0 = 0 ∨
      (shifts.set (order.getD pos 0) s).getD j 0 = 1 := by
    intro j
    rcases eq_or_ne (order.getD pos 0) j with heq | hne
    · rw [← heq, getD_set_self _ _ _ _ hi]
      exact hs
    · rw [getD_set_ne _ _ _ _ _ hne]
      exact hvalid j
  rw [local_cost_at_eq_fast bpms base_keys hkeys order
    (shifts.set (order.getD pos 0) s) pos hpos horder hvalid']
  unfold _local_fast_cost
  rw [getD_set_self shifts (order.getD pos 0) s 0 hi]

/-- **C3**: `optimize_shift_at(pos)` (and its fast twin) set
`shifts[order[pos]]` to a shift in `{-1, 0, +1}` minimizing the sum of the up
to two incident edge costs with the neighbours' shifts held fixed; ties keep
the current value; no other entry of `shifts` is modified (and the functional
embedding never touches `order`); and the string/dict implementation
`optimize_shift_at` returns the same shift and the same updated list as
`_optimize_shift_fast`. -/
theorem C3_optimize_shift (bpms : List ℤ) (base_keys : List CamStr)
    (hkeys : ∀ k ∈ base_keys, k ∈ camelot_keys)
    (order : List ℕ) (shifts : List ℤ) (pos : ℕ)
    (hpos : pos < order.length)
    (horder : ∀ x ∈ order, x < base_keys.length)
    (hslen : shifts.length = base_keys.length)
    (hvalid : ∀ j : ℕ, shifts.getD j 0 = -1 ∨ shifts.getD j 0 = 0 ∨ shifts.getD j 0 = 1) :
    ∃ bs : ℤ,
      (bs = -1 ∨ bs = 0 ∨ bs = 1) ∧
      _optimize_shift_fast order shifts pos bpms (base_key_ids base_keys) =
        shifts.set (order.getD pos 0) bs ∧
      (∀ s : ℤ, s = -1 ∨ s = 0 ∨ s = 1 →
        _local_fast_cost order shifts pos bs bpms (base_key_ids base_keys) ≤
          _local_fast_cost order shifts pos s bpms (base_key_ids base_keys)) ∧
      ((∀ s : ℤ, s = -1 ∨ s = 0 ∨ s = 1 →
          _local_fast_cost order shifts pos (shifts.getD (order.getD pos 0) 0) bpms
            (base_key_ids base_keys) ≤
          _local_fast_cost order shifts pos s bpms (base_key_ids base_keys)) →
        bs = shifts.getD (order.getD pos 0) 0) ∧
      (∀ j : ℕ, j ≠ order.getD pos 0 →
        (_optimize_shift_fast order shifts pos bpms (base_key_ids base_keys)).getD j 0 =
          shifts.getD j 0) ∧
      optimize_shift_at bpms base_keys order shifts pos =
        some (bs, shifts.set (order.getD pos 0) bs) := by
  have hi : order.getD pos 0 < shifts.length := by
    rw [hslen]
    exact horder _ (getD_mem_of_lt order pos hpos 0)
  have hbest0 :
      _local_fast_cost order shifts pos (shifts.getD (order.getD pos 0) 0) bpms
        (base_key_ids base_keys) =
      (if 0 < pos then
        _fast_edge_cost (order.getD (pos - 1) 0) (order.getD pos 0)
          (shifts.getD (order.getD (pos - 1) 0) 0) (shifts.getD (order.getD pos 0) 0)
          bpms (base_key_ids base_keys)
      else 0) +
      (if pos < order.length - 1 then
        _fast_edge_cost (order.getD pos 0) (order.getD (pos + 1) 0)
          (shifts.getD (order.getD pos 0) 0) (shifts.getD (order.getD (pos + 1) 0) 0)
          bpms (base_key_ids base_keys)
      else 0) := by
    simp only [_local_fast_cost]
    rw [set_getD_self shifts (order.getD pos 0) 0 hi]
  have hosf : _osf_choice order shifts pos bpms (base_key_ids base_keys) =
      ([(-1 : ℤ), 0, 1].foldl
        (fun (best : ℚ × ℤ) s =>
          if _local_fast_cost order shifts pos s bpms (base_key_ids base_keys) < best.1 then
            (_local_fast_cost order shifts pos s bpms (base_key_ids base_keys), s)
          else best)
        (_local_fast_cost order shifts pos (shifts.getD (order.getD pos 0) 0) bpms
          (base_key_ids base_keys), shifts.getD (order.getD pos 0) 0)).2 := by
    simp only [_osf_choice]
    rw [← hbest0]
  have hfold := foldl_step_spec
    (fun s => _local_fast_cost order shifts pos s bpms (base_key_ids base_keys))
    [(-1 : ℤ), 0, 1]
    (_local_fast_cost order shifts pos (shifts.getD (order.getD pos 0) 0) bpms
      (base_key_ids base_keys), shifts.getD (order.getD pos 0) 0) rfl
  have hmem := foldl_step_snd_mem
    (fun s => _local_fast_cost order shifts pos s bpms (base_key_ids base_keys))
    [(-1 : ℤ), 0, 1]
    (_local_fast_cost order shifts pos (shifts.getD (order.getD pos 0) 0) bpms
      (base_key_ids base_keys), shifts.getD (order.getD pos 0) 0)
  refine ⟨_osf_choice order shifts pos bpms (base_key_ids base_keys), ?_, ?_, ?_, ?_, ?_, ?_⟩
  · rw [hosf]
    rcases hmem with h | h
    · rcases hvalid (order.getD pos 0) with hv | hv | hv <;> rw [h] <;> tauto
    · simp only [List.mem_cons, List.not_mem_nil, or_false] at h
      tauto
  · exact optimize_shift_fast_eq_set order shifts pos bpms (base_key_ids base_keys)
  · intro s hs
    rw [hosf]
    exact le_trans
      (le_of_eq (hfold.1.symm))
      (hfold.2.2 s (by rcases hs with rfl | rfl | rfl <;> simp))
  · intro hminimal
    have := foldl_step_tie
      (fun s => _local_fast_cost order shifts pos s bpms (base_key_ids base_keys))
      [(-1 : ℤ), 0, 1]
      (_local_fast_cost order shifts pos (shifts.getD (order.getD pos 0) 0) bpms
        (base_key_ids base_keys), shifts.getD (order.getD pos 0) 0)
      (by
        intro s hs
        exact hminimal s (by simpa using hs))
    rw [hosf]
    exact congrArg Prod.snd this
  · intro j hj
    rw [optimize_shift_fast_eq_set]
    exact getD_set_ne _ _ _ _ _ (Ne.symm hj)
  · simp only [optimize_shift_at, List.foldlM_cons, List.foldlM_nil,
      local_cost_at_eq_fast bpms base_keys hkeys order shifts pos hpos horder hvalid,
      local_cost_at_set_eq bpms base_keys hkeys order shifts pos hpos horder hvalid hi
        (-1) (by tauto),
      local_cost_at_set_eq bpms base_keys hkeys order shifts pos hpos horder hvalid hi
        0 (by tauto),
      local_cost_at_set_eq bpms base_keys hkeys order shifts pos hpos horder hvalid hi
        1 (by tauto),
      Option.bind_eq_bind, Option.some_bind, Option.pure_def]
    rw [hosf, hbest0]
    rfl

/-- Witness for C3 at a concrete input (two tracks 8A/8B at equal BPM,
identity order, zero shifts, position 0). -/
theorem C3_optimize_shift_witness :
    (∀ k ∈ [cam "8A", cam "8B"], k ∈ camelot_keys) ∧
    (0 : ℕ) < ([0, 1] : List ℕ).length ∧
    (∀ x ∈ ([0, 1] : List ℕ), x < ([cam "8A", cam "8B"] : List CamStr).length) ∧
    ([0, 0] : List ℤ).length = ([cam "8A", cam "8B"] : List CamStr).length ∧
    (∀ j : ℕ, ([0, 0] : List ℤ).getD j 0 = -1 ∨ ([0, 0] : List ℤ).getD j 0 = 0 ∨
      ([0, 0] : List ℤ).getD j 0 = 1) ∧
    (∃ bs : ℤ,
      (bs = -1 ∨ bs = 0 ∨ bs = 1) ∧
      _optimize_shift_fast [0, 1] [0, 0] 0 [120, 120]
          (base_key_ids [cam "8A", cam "8B"]) =
        ([0, 0] : List ℤ).set (([0, 1] : List ℕ).getD 0 0) bs ∧
      (∀ s : ℤ, s = -1 ∨ s = 0 ∨ s = 1 →
        _local_fast_cost [0, 1] [0, 0] 0 bs [120, 120]
            (base_key_ids [cam "8A", cam "8B"]) ≤
          _local_fast_cost [0, 1] [0, 0] 0 s [120, 120]
            (base_key_ids [cam "8A", cam "8B"])) ∧
      ((∀ s : ℤ, s = -1 ∨ s = 0 ∨ s = 1 →
          _local_fast_cost [0, 1] [0, 0] 0
              (([0, 0] : List ℤ).getD (([0, 1] : List ℕ).getD 0 0) 0) [120, 120]
              (base_key_ids [cam "8A", cam "8B"]) ≤
          _local_fast_cost [0, 1] [0, 0] 0 s [120, 120]
            (base_key_ids [cam "8A", cam "8B"])) →
        bs = ([0, 0] : List ℤ).getD (([0, 1] : List ℕ).getD 0 0) 0) ∧
      (∀ j : ℕ, j ≠ ([0, 1] : List ℕ).getD 0 0 →
        (_optimize_shift_fast [0, 1] [0, 0] 0 [120, 120]
            (base_key_ids [cam "8A", cam "8B"])).getD j 0 =
          ([0, 0] : List ℤ).getD j 0) ∧
      optimize_shift_at [120, 120] [cam "8A", cam "8B"] [0, 1] [0, 0] 0 =
        some (bs, ([0, 0] : List ℤ).set (([0, 1] : List ℕ).getD 0 0) bs)) :=
  ⟨by decide, by decide, by decide, by decide,
    (by
      intro j
      right; left
      match j with
      | 0 => rfl
      | 1 => rfl
      | Nat.succ (Nat.succ j) => rfl),
    C3_optimize_shift [120, 120] [cam "8A", cam "8B"] (by decide) [0, 1] [0, 0] 0
      (by decide) (by decide) (by decide)
      (by
        intro j
        right; left
        match j with
        | 0 => rfl
        | 1 => rfl
        | Nat.succ (Nat.succ j) => rfl)⟩

theorem affected_subset_range (a b n : ℕ) (han : a < n) (hbn : b < n) :
    _edge_positions_for_swap a b n ⊆ Finset.range (n - 1) := by
  intro j hj
  rw [mem_edge_positions] at hj
  rw [Finset.mem_range]
  omega

theorem compute_total_eq_sum (sw : ℚ) (order : List ℕ) (shifts : List ℤ)
    (bpm_arr : List ℤ) (key_id_arr : List ℕ) :
    (_compute_total_cost sw order shifts bpm_arr key_id_arr).1 =
      (∑ j ∈ Finset.range (order.length - 1),
        _fast_edge_cost (order.getD j 0) (order.getD (j + 1) 0)
          (shifts.getD (order.getD j 0) 0) (shifts.getD (order.getD (j + 1) 0) 0)
          bpm_arr key_id_arr) +
      sw * (SHIFT_PENALTY *
        (((Finset.range order.length).filter (fun i => shifts.getD i 0 ≠ 0)).card : ℚ)) := by
  simp only [_compute_total_cost]
  rw [Finset.mul_sum, ← Finset.sum_add_distrib]
  congr 1
  apply Finset.sum_congr rfl
  intro j _
  exact (fast_eq_ht (order.getD j 0) (order.getD (j + 1) 0)
    (shifts.getD (order.getD j 0) 0) (shifts.getD (order.getD (j + 1) 0) 0)
    bpm_arr key_id_arr).symm

theorem filter_card_eq_sum_ind (n : ℕ) (shifts : List ℤ) :
    ((((Finset.range n).filter (fun i => shifts.getD i 0 ≠ 0)).card : ℕ) : ℚ) =
      ∑ i ∈ Finset.range n, (if shifts.getD i 0 ≠ 0 then (1 : ℚ) else 0) := by
  rw [Finset.card_filter]
  push_cast
  apply Finset.sum_congr rfl
  intro i _
  split_ifs <;> simp

theorem count_diff (shifts shifts' : List ℤ) (n i1 i2 : ℕ) (hne : i1 ≠ i2)
    (h1 : i1 < n) (h2 : i2 < n)
    (hout : ∀ t : ℕ, t ≠ i1 → t ≠ i2 → shifts'.getD t 0 = shifts.getD t 0) :
    ((((Finset.range n).filter (fun i => shifts'.getD i 0 ≠ 0)).card : ℕ) : ℚ) -
      ((((Finset.range n).filter (fun i => shifts.getD i 0 ≠ 0)).card : ℕ) : ℚ) =
      ((if shifts'.getD i1 0 ≠ 0 then (1 : ℚ) else 0) +
        (if shifts'.getD i2 0 ≠ 0 then (1 : ℚ) else 0)) -
      ((if shifts.getD i1 0 ≠ 0 then (1 : ℚ) else 0) +
        (if shifts.getD i2 0 ≠ 0 then (1 : ℚ) else 0)) := by
  rw [filter_card_eq_sum_ind, filter_card_eq_sum_ind, ← Finset.sum_sub_distrib]
  have hsub : ({i1, i2} : Finset ℕ) ⊆ Finset.range n := by
    intro t ht
    rw [Finset.mem_insert, Finset.mem_singleton] at ht
    rw [Finset.mem_range]
    rcases ht with rfl | rfl
    · exact h1
    · exact h2
  rw [← Finset.sum_subset hsub]
  · rw [Finset.sum_pair hne]
    ring
  · intro t _ ht
    rw [Finset.mem_insert, Finset.mem_singleton] at ht
    push_neg at ht
    rw [hout t ht.1 ht.2]
    ring

/-- **C2**: for every state whose `order` is a duplicate-free list of
positions within range (as the annealer maintains) and whose running cost
equals the full state cost, and for every pair of distinct positions `a, b`,
the candidate cost computed by the delta path — current cost plus the change
of the affected-edge sum plus `SHIFT_PENALTY · SHIFT_WEIGHT ·
(new_shift_count − old_shift_count)` — equals the full recomputation of the
post-swap, post-shift-optimization state cost, in exact rational arithmetic,
for every `SHIFT_WEIGHT` configuration value `sw`. -/
theorem C2_delta_consistency (sw : ℚ) (bpm_arr : List ℤ) (key_id_arr : List ℕ)
    (order : List ℕ) (shifts : List ℤ) (a b : ℕ)
    (hnd : order.Nodup) (hbound : ∀ x ∈ order, x < order.length)
    (ha : a < order.length) (hb : b < order.length) (hab : a ≠ b) :
    (let order1 := (order.set a (order.getD b 0)).set b (order.getD a 0)
     let shifts2 := _optimize_shift_fast order1
       (_optimize_shift_fast order1 shifts a bpm_arr key_id_arr) b bpm_arr key_id_arr
     (_compute_total_cost sw order shifts bpm_arr key_id_arr).1 +
       (_sum_edge_costs (_edge_positions_for_swap a b order.length) order1 shifts2
           bpm_arr key_id_arr -
         _sum_edge_costs (_edge_positions_for_swap a b order.length) order shifts
           bpm_arr key_id_arr) +
       SHIFT_PENALTY * sw *
         (((if shifts2.getD (order1.getD a 0) 0 ≠ 0 then (1 : ℚ) else 0) +
           (if shifts2.getD (order1.getD b 0) 0 ≠ 0 then (1 : ℚ) else 0)) -
          ((if shifts.getD (order.getD a 0) 0 ≠ 0 then (1 : ℚ) else 0) +
           (if shifts.getD (order.getD b 0) 0 ≠ 0 then (1 : ℚ) else 0))) =
     (_compute_total_cost sw order1 shifts2 bpm_arr key_id_arr).1) := by
  dsimp only
  have hi1 : ((order.set a (order.getD b 0)).set b (order.getD a 0)).getD a 0 =
      order.getD b 0 := swap_getD_a order a b ha hab
  have hi2 : ((order.set a (order.getD b 0)).set b (order.getD a 0)).getD b 0 =
      order.getD a 0 := swap_getD_b order a b hb
  rw [hi1, hi2]
  have hlen1 : ((order.set a (order.getD b 0)).set b (order.getD a 0)).length =
      order.length := by
    simp [List.length_set]
  have h1 := compute_total_eq_sum sw order shifts bpm_arr key_id_arr
  have h2 := compute_total_eq_sum sw
    ((order.set a (order.getD b 0)).set b (order.getD a 0))
    (_optimize_shift_fast ((order.set a (order.getD b 0)).set b (order.getD a 0))
      (_optimize_shift_fast ((order.set a (order.getD b 0)).set b (order.getD a 0))
        shifts a bpm_arr key_id_arr) b bpm_arr key_id_arr)
    bpm_arr key_id_arr
  rw [hlen1] at h2
  have hzero : ∀ j ∈ Finset.range (order.length - 1),
      j ∉ _edge_positions_for_swap a b order.length →
      (_fast_edge_cost
          (((order.set a (order.getD b 0)).set b (order.getD a 0)).getD j 0)
          (((order.set a (order.getD b 0)).set b (order.getD a 0)).getD (j + 1) 0)
          ((_optimize_shift_fast ((order.set a (order.getD b 0)).set b (order.getD a 0))
              (_optimize_shift_fast ((order.set a (order.getD b 0)).set b (order.getD a 0))
                shifts a bpm_arr key_id_arr) b bpm_arr key_id_arr).getD
            (((order.set a (order.getD b 0)).set b (order.getD a 0)).getD j 0) 0)
          ((_optimize_shift_fast ((order.set a (order.getD b 0)).set b (order.getD a 0))
              (_optimize_shift_fast ((order.set a (order.getD b 0)).set b (order.getD a 0))
                shifts a bpm_arr key_id_arr) b bpm_arr key_id_arr).getD
            (((order.set a (order.getD b 0)).set b (order.getD a 0)).getD (j + 1) 0) 0)
          bpm_arr key_id_arr -
        _fast_edge_cost (order.getD j 0) (order.getD (j + 1) 0)
          (shifts.getD (order.getD j 0) 0) (shifts.getD (order.getD (j + 1) 0) 0)
          bpm_arr key_id_arr) = 0 := by
    intro j hjr hjn
    rw [Finset.mem_range] at hjr
    rw [edge_unchanged_outside a b order.length hab ha hb order shifts bpm_arr
      key_id_arr rfl hnd hbound j hjr hjn]
    exact sub_self _
  have hEdge :
      (∑ j ∈ Finset.range (order.length - 1),
        _fast_edge_cost
          (((order.set a (order.getD b 0)).set b (order.getD a 0)).getD j 0)
          (((order.set a (order.getD b 0)).set b (order.getD a 0)).getD (j + 1) 0)
          ((_optimize_shift_fast ((order.set a (order.getD b 0)).set b (order.getD a 0))
              (_optimize_shift_fast ((order.set a (order.getD b 0)).set b (order.getD a 0))
                shifts a bpm_arr key_id_arr) b bpm_arr key_id_arr).getD
            (((order.set a (order.getD b 0)).set b (order.getD a 0)).getD j 0) 0)
          ((_optimize_shift_fast ((order.set a (order.getD b 0)).set b (order.getD a 0))
              (_optimize_shift_fast ((order.set a (order.getD b 0)).set b (order.getD a 0))
                shifts a bpm_arr key_id_arr) b bpm_arr key_id_arr).getD
            (((order.set a (order.getD b 0)).set b (order.getD a 0)).getD (j + 1) 0) 0)
          bpm_arr key_id_arr) -
      (∑ j ∈ Finset.range (order.length - 1),
        _fast_edge_cost (order.getD j 0) (order.getD (j + 1) 0)
          (shifts.getD (order.getD j 0) 0) (shifts.getD (order.getD (j + 1) 0) 0)
          bpm_arr key_id_arr) =
      _sum_edge_costs (_edge_positions_for_swap a b order.length)
        ((order.set a (order.getD b 0)).set b (order.getD a 0))
        (_optimize_shift_fast ((order.set a (order.getD b 0)).set b (order.getD a 0))
          (_optimize_shift_fast ((order.set a (order.getD b 0)).set b (order.getD a 0))
            shifts a bpm_arr key_id_arr) b bpm_arr key_id_arr)
        bpm_arr key_id_arr -
      _sum_edge_costs (_edge_positions_for_swap a b order.length) order shifts
        bpm_arr key_id_arr := by
    simp only [_sum_edge_costs]
    rw [← Finset.sum_sub_distrib, ← Finset.sum_sub_distrib]
    exact (Finset.sum_subset (affected_subset_range a b order.length ha hb) hzero).symm
  have hi1n : order.getD b 0 < order.length := hbound _ (getD_mem_of_lt order b hb 0)
  have hi2n : order.getD a 0 < order.length := hbound _ (getD_mem_of_lt order a ha 0)
  have hi_ne : order.getD b 0 ≠ order.getD a 0 :=
    getD_ne_getD_of_nodup order hnd b a hb ha (Ne.symm hab) 0
  have hout : ∀ t : ℕ, t ≠ order.getD b 0 → t ≠ order.getD a 0 →
      (_optimize_shift_fast ((order.set a (order.getD b 0)).set b (order.getD a 0))
        (_optimize_shift_fast ((order.set a (order.getD b 0)).set b (order.getD a 0))
          shifts a bpm_arr key_id_arr) b bpm_arr key_id_arr).getD t 0 =
      shifts.getD t 0 := by
    intro t ht1 ht2
    rw [optimize_shift_fast_eq_set, optimize_shift_fast_eq_set, hi1, hi2]
    rw [getD_set_ne _ _ _ _ _ (Ne.symm ht2), getD_set_ne _ _ _ _ _ (Ne.symm ht1)]
  have hCard := count_diff shifts
    (_optimize_shift_fast ((order.set a (order.getD b 0)).set b (order.getD a 0))
      (_optimize_shift_fast ((order.set a (order.getD b 0)).set b (order.getD a 0))
        shifts a bpm_arr key_id_arr) b bpm_arr key_id_arr)
    order.length (order.getD b 0) (order.getD a 0) hi_ne hi1n hi2n hout
  rw [h1, h2]
  linear_combination (-1 : ℚ) * hEdge - SHIFT_PENALTY * sw * hCard

/-- Witness for C2 at a concrete 2-track state. -/
theorem C2_delta_consistency_witness :
    ([1, 0] : List ℕ).Nodup ∧
    (∀ x ∈ ([1, 0] : List ℕ), x < ([1, 0] : List ℕ).length) ∧
    (0 : ℕ) < ([1, 0] : List ℕ).length ∧
    (1 : ℕ) < ([1, 0] : List ℕ).length ∧
    (0 : ℕ) ≠ 1 ∧
    (let order1 := (([1, 0] : List ℕ).set 0 (([1, 0] : List ℕ).getD 1 0)).set 1
      (([1, 0] : List ℕ).getD 0 0)
     let shifts2 := _optimize_shift_fast order1
       (_optimize_shift_fast order1 [0, 0] 0 [120, 126] [0, 1]) 1 [120, 126] [0, 1]
     (_compute_total_cost 1 [1, 0] [0, 0] [120, 126] [0, 1]).1 +
       (_sum_edge_costs (_edge_positions_for_swap 0 1 ([1, 0] : List ℕ).length) order1
           shifts2 [120, 126] [0, 1] -
         _sum_edge_costs (_edge_positions_for_swap 0 1 ([1, 0] : List ℕ).length) [1, 0]
           [0, 0] [120, 126] [0, 1]) +
       SHIFT_PENALTY * 1 *
         (((if shifts2.getD (order1.getD 0 0) 0 ≠ 0 then (1 : ℚ) else 0) +
           (if shifts2.getD (order1.getD 1 0) 0 ≠ 0 then (1 : ℚ) else 0)) -
          ((if ([0, 0] : List ℤ).getD (([1, 0] : List ℕ).getD 0 0) 0 ≠ 0 then (1 : ℚ) else 0) +
           (if ([0, 0] : List ℤ).getD (([1, 0] : List ℕ).getD 1 0) 0 ≠ 0 then (1 : ℚ) else 0))) =
     (_compute_total_cost 1 order1 shifts2 [120, 126] [0, 1]).1) :=
  ⟨by decide, by decide, by decide, by decide, by decide,
    C2_delta_consistency 1 [120, 126] [0, 1] [1, 0] [0, 0] 0 1
      (by decide) (by decide) (by decide) (by decide) (by decide)⟩

/-! ## Annealer invariants (C4) -/

theorem get_eq_getD {α : Type} (l : List α) (p : ℕ) (hp : p < l.length) (d : α) :
    l.get ⟨p, hp⟩ = l.getD p d := by
  rw [List.getD_eq_getElem?_getD, List.getElem?_eq_getElem hp]
  rfl

theorem isPermOf_swap (n : ℕ) (order : List ℕ) (h : IsPermOf n order)
    (a b : ℕ) (ha : a < n) (hb : b < n) (hab : a ≠ b) :
    IsPermOf n ((order.set a (order.getD b 0)).set b (order.getD a 0)) := by
  obtain ⟨hlen, hnd, hbound⟩ := h
  have ha' : a < order.length := by omega
  have hb' : b < order.length := by omega
  have hlen'' : ((order.set a (order.getD b 0)).set b (order.getD a 0)).length = n := by
    simp [List.length_set, hlen]
  refine ⟨hlen'', ?_, ?_⟩
  · rw [List.nodup_iff_injective_get]
    intro x y hxy
    have hxy' : ((order.set a (order.getD b 0)).set b (order.getD a 0)).getD x.val 0 =
        ((order.set a (order.getD b 0)).set b (order.getD a 0)).getD y.val 0 := by
      rw [← get_eq_getD _ x.val x.isLt 0, ← get_eq_getD _ y.val y.isLt 0]
      exact hxy
    have hswap : ∀ p : ℕ, p < n →
        ((order.set a (order.getD b 0)).set b (order.getD a 0)).getD p 0 =
          order.getD (if p = a then b else if p = b then a else p) 0 := by
      intro p hp
      by_cases hpa : p = a
      · subst hpa
        rw [if_pos rfl]
        exact swap_getD_a order p b ha' hab
      · by_cases hpb : p = b
        · subst hpb
          rw [if_neg hpa, if_pos rfl]
          exact swap_getD_b order a p hb'
        · rw [if_neg hpa, if_neg hpb]
          exact swap_getD_other order a b p hpa hpb
    have hxn : x.val < n := by
      have := x.isLt
      omega
    have hyn : y.val < n := by
      have := y.isLt
      omega
    rw [hswap x.val hxn, hswap y.val hyn] at hxy'
    have hσx : (if x.val = a then b else if x.val = b then a else x.val) < order.length := by
      split_ifs <;> omega
    have hσy : (if y.val = a then b else if y.val = b then a else y.val) < order.length := by
      split_ifs <;> omega
    have hσeq : (if x.val = a then b else if x.val = b then a else x.val) =
        (if y.val = a then b else if y.val = b then a else y.val) := by
      by_contra hne
      exact getD_ne_getD_of_nodup order hnd _ _ hσx hσy hne 0 hxy'
    have hval : x.val = y.val := by
      split_ifs at hσeq <;> omega
    exact Fin.ext hval
  · intro x hx
    rcases List.mem_or_eq_of_mem_set hx with hx' | rfl
    · rcases List.mem_or_eq_of_mem_set hx' with hx'' | rfl
      · exact hbound x hx''
      · exact hbound _ (getD_mem_of_lt order b hb' 0)
    · exact hbound _ (getD_mem_of_lt order a ha' 0)

theorem validShifts_optimize (n : ℕ) (order : List ℕ) (shifts : List ℤ)
    (h : ValidShifts n shifts) (pos : ℕ) (bpm_arr : List ℤ) (key_id_arr : List ℕ) :
    ValidShifts n (_optimize_shift_fast order shifts pos bpm_arr key_id_arr) := by
  rw [optimize_shift_fast_eq_set]
  refine ⟨by simp [List.length_set, h.1], ?_⟩
  intro s hs
  rcases List.mem_or_eq_of_mem_set hs with hmem | rfl
  · exact h.2 s hmem
  · rcases osf_choice_cases order shifts pos bpm_arr key_id_arr with hc | hc | hc | hc
    · left; exact hc
    · right; left; exact hc
    · right; right; exact hc
    · rw [hc]
      exact validShifts_getD h _

set_option maxHeartbeats 1000000 in
theorem sa_step_inv (sw : ℚ) (bpm_arr : List ℤ) (key_id_arr : List ℕ)
    (n num_candidates : ℕ) (draw : ℕ × ℕ) (metro : Bool) (st : SAState)
    (hinv : SAInv n st)
    (hd1 : draw.1 < n) (hd2 : draw.2 < n) (hdne : draw.1 ≠ draw.2) :
    SAInv n (sa_step sw bpm_arr key_id_arr n num_candidates draw metro st) := by
  obtain ⟨ho, hs, hbo, hbs⟩ := hinv
  by_cases hesc : st.in_escape_mode = true
  · have hperm1 : IsPermOf n
        ((st.order.set draw.1 (st.order.getD draw.2 0)).set draw.2
          (st.order.getD draw.1 0)) :=
      isPermOf_swap n st.order ho draw.1 draw.2 hd1 hd2 hdne
    have hvalid2 : ValidShifts n
        (_optimize_shift_fast
          ((st.order.set draw.1 (st.order.getD draw.2 0)).set draw.2
            (st.order.getD draw.1 0))
          (_optimize_shift_fast
            ((st.order.set draw.1 (st.order.getD draw.2 0)).set draw.2
              (st.order.getD draw.1 0))
            st.shifts draw.1 bpm_arr key_id_arr)
          draw.2 bpm_arr key_id_arr) :=
      validShifts_optimize n _ _
        (validShifts_optimize n _ _ hs draw.1 bpm_arr key_id_arr) draw.2
        bpm_arr key_id_arr
    simp only [sa_step, hesc, if_true]
    split_ifs <;>
      first
        | exact ⟨hperm1, hvalid2, hperm1, hvalid2⟩
        | exact ⟨hperm1, hvalid2, hbo, hbs⟩
        | exact absurd hesc (by assumption)
  · have hperm1 : IsPermOf n
        ((st.best_order.set draw.1 (st.best_order.getD draw.2 0)).set draw.2
          (st.best_order.getD draw.1 0)) :=
      isPermOf_swap n st.best_order hbo draw.1 draw.2 hd1 hd2 hdne
    have hvalid2 : ValidShifts n
        (_optimize_shift_fast
          ((st.best_order.set draw.1 (st.best_order.getD draw.2 0)).set draw.2
            (st.best_order.getD draw.1 0))
          (_optimize_shift_fast
            ((st.best_order.set draw.1 (st.best_order.getD draw.2 0)).set draw.2
              (st.best_order.getD draw.1 0))
            st.best_shifts draw.1 bpm_arr key_id_arr)
          draw.2 bpm_arr key_id_arr) :=
      validShifts_optimize n _ _
        (validShifts_optimize n _ _ hbs draw.1 bpm_arr key_id_arr) draw.2
        bpm_arr key_id_arr
    simp only [sa_step]
    split_ifs <;>
      first
        | exact ⟨hperm1, hvalid2, hperm1, hvalid2⟩
        | exact ⟨hperm1, hvalid2, hbo, hbs⟩
        | exact absurd (by assumption) hesc

theorem sa_init_inv (sw : ℚ) (bpm_arr : List ℤ) (key_id_arr : List ℕ) (n : ℕ)
    (order0 : List ℕ) (shifts0 : List ℤ)
    (hperm : IsPermOf n order0) (hvalid : ValidShifts n shifts0) :
    SAInv n (sa_init sw bpm_arr key_id_arr order0 shifts0) :=
  ⟨hperm, hvalid, hperm, hvalid⟩

/-- **C4**: for every input, every `SHIFT_WEIGHT` configuration and every
outcome of the random draws (position pairs and Metropolis results — i.e.
every RNG seed), if the per-attempt initialization receives a permutation of
`0..n-1` from `random.sample` and `{-1, 0, +1}` values from `random.choice`,
then at every iteration count `k` the working state and the best state both
keep `order` a permutation of `0..n-1` and every shift in `{-1, 0, +1}`:
initialization establishes the invariant and the swap step plus the two
shift-optimization calls preserve it. -/
theorem C4_annealer_invariants (sw : ℚ) (bpm_arr : List ℤ) (key_id_arr : List ℕ)
    (n num_candidates : ℕ) (draws : ℕ → ℕ × ℕ) (metros : ℕ → Bool)
    (hdraws : ∀ t, (draws t).1 < n ∧ (draws t).2 < n ∧ (draws t).1 ≠ (draws t).2)
    (order0 : List ℕ) (shifts0 : List ℤ)
    (hperm0 : IsPermOf n order0) (hvalid0 : ValidShifts n shifts0) (k : ℕ) :
    SAInv n (sa_iterate sw bpm_arr key_id_arr n num_candidates draws metros k
      (sa_init sw bpm_arr key_id_arr order0 shifts0)) := by
  induction k with
  | zero => exact sa_init_inv sw bpm_arr key_id_arr n order0 shifts0 hperm0 hvalid0
  | succ k ih =>
    exact sa_step_inv sw bpm_arr key_id_arr n num_candidates (draws k) (metros k) _
      ih (hdraws k).1 (hdraws k).2.1 (hdraws k).2.2

/-- Witness for C4 at a concrete 2-track instance, constant oracle streams,
three iterations. -/
theorem C4_annealer_invariants_witness :
    (∀ t : ℕ, (0 : ℕ) < 2 ∧ (1 : ℕ) < 2 ∧ (0 : ℕ) ≠ 1) ∧
    IsPermOf 2 [0, 1] ∧ ValidShifts 2 [0, 1] ∧
    SAInv 2 (sa_iterate 1 [120, 126] [0, 1] 2 4 (fun _ => (0, 1)) (fun _ => false) 3
      (sa_init 1 [120, 126] [0, 1] [0, 1] [0, 1])) :=
  ⟨fun _ => ⟨by norm_num, by norm_num, by norm_num⟩,
    ⟨by decide, by decide, by decide⟩, ⟨by decide, by decide⟩,
    C4_annealer_invariants 1 [120, 126] [0, 1] 2 4 (fun _ => (0, 1)) (fun _ => false)
      (fun _ => ⟨by norm_num, by norm_num, by norm_num⟩) [0, 1] [0, 1]
      ⟨by decide, by decide, by decide⟩ ⟨by decide, by decide⟩ 3⟩

/-! ## Breakdown identity (C6) -/

theorem countP_range_eq_sum (p : ℕ → Bool) (n : ℕ) :
    (((List.range n).countP p : ℕ) : ℚ) =
      ∑ i ∈ Finset.range n, (if p i then (1 : ℚ) else 0) := by
  induction n with
  | zero => simp
  | succ n ih =>
    rw [List.range_succ, List.countP_append, Finset.sum_range_succ, ← ih]
    push_cast
    congr 1
    simp only [List.countP_cons, List.countP_nil]
    split_ifs with h <;> simp [h]

theorem countP_order_eq_filter_card (n : ℕ) (order : List ℕ) (shifts : List ℤ)
    (hlen : order.length = n) (hnd : order.Nodup) (hbound : ∀ x ∈ order, x < n) :
    ((order.countP (fun i => shifts.getD i 0 != 0) : ℕ) : ℚ) =
      (((Finset.range n).filter (fun i => shifts.getD i 0 ≠ 0)).card : ℚ) := by
  have hperm : order.Perm (List.range n) := by
    apply List.Subperm.perm_of_length_le
    · exact List.Nodup.subperm hnd (fun x hx => List.mem_range.2 (hbound x hx))
    · rw [List.length_range, hlen]
  rw [List.Perm.countP_eq _ hperm, countP_range_eq_sum, filter_card_eq_sum_ind]
  apply Finset.sum_congr rfl
  intro i _
  by_cases h : shifts.getD i 0 = 0
  · simp [h]
  · simp [h]

/-- **C6 (amended)**: whenever the optimizer returns, the reported
`(overall, H, T, S)` values (computed by `total_mix_cost_split_order` and
`overall = H + TEMPO_COST_WEIGHT·T + S`, mixer.py lines 703-704) satisfy the
breakdown identity with coefficient exactly 1 on the shift component: the
reported overall equals the full fast-path state cost at the default
`SHIFT_WEIGHT = 1`, and `total = H + TEMPO_COST_WEIGHT·T + SHIFT_WEIGHT·S`
holds exactly at that default. The reporting path never multiplies `S` by
`SHIFT_WEIGHT`, so for configurations with `SHIFT_WEIGHT ≠ 1` the claimed
identity fails (see the counterexample). -/
theorem C6_breakdown_identity (bpms : List ℤ) (base_keys : List CamStr)
    (hkeys : ∀ k ∈ base_keys, k ∈ camelot_keys)
    (order : List ℕ) (shifts : List ℤ)
    (hnd : order.Nodup) (hbound : ∀ x ∈ order, x < order.length)
    (hlen : order.length = base_keys.length)
    (hvalid : ∀ j : ℕ, shifts.getD j 0 = -1 ∨ shifts.getD j 0 = 0 ∨ shifts.getD j 0 = 1) :
    total_mix_cost_split_order bpms base_keys order shifts =
      some ((_compute_total_cost 1 order shifts bpms (base_key_ids base_keys)).2.1,
            (_compute_total_cost 1 order shifts bpms (base_key_ids base_keys)).2.2.1,
            (_compute_total_cost 1 order shifts bpms (base_key_ids base_keys)).2.2.2) ∧
    attempt_overall bpms base_keys order shifts =
      some ((_compute_total_cost 1 order shifts bpms (base_key_ids base_keys)).1) ∧
    (_compute_total_cost 1 order shifts bpms (base_key_ids base_keys)).1 =
      (_compute_total_cost 1 order shifts bpms (base_key_ids base_keys)).2.1 +
        TEMPO_COST_WEIGHT *
          (_compute_total_cost 1 order shifts bpms (base_key_ids base_keys)).2.2.1 +
        SHIFT_WEIGHT *
          (_compute_total_cost 1 order shifts bpms (base_key_ids base_keys)).2.2.2 := by
  have hmapM : (List.range (order.length - 1)).mapM (fun j =>
      transition_cost_components bpms base_keys
        (order.getD j 0) (order.getD (j + 1) 0)
        (shifts.getD (order.getD j 0) 0) (shifts.getD (order.getD (j + 1) 0) 0)) =
      some ((List.range (order.length - 1)).map (fun j =>
        _edge_ht (order.getD j 0) (order.getD (j + 1) 0)
          (shifts.getD (order.getD j 0) 0) (shifts.getD (order.getD (j + 1) 0) 0)
          bpms (base_key_ids base_keys))) := by
    apply mapM_eq_some_map
    intro j hj
    rw [List.mem_range] at hj
    have hj1 : j < order.length := by omega
    have hj2 : j + 1 < order.length := by omega
    exact components_eq_ht bpms base_keys hkeys _ _
      (by rw [← hlen]; exact hbound _ (getD_mem_of_lt order j hj1 0))
      (by rw [← hlen]; exact hbound _ (getD_mem_of_lt order (j + 1) hj2 0))
      _ _ (hvalid _) (hvalid _)
  have hsplit : total_mix_cost_split_order bpms base_keys order shifts =
      some ((_compute_total_cost 1 order shifts bpms (base_key_ids base_keys)).2.1,
            (_compute_total_cost 1 order shifts bpms (base_key_ids base_keys)).2.2.1,
            (_compute_total_cost 1 order shifts bpms (base_key_ids base_keys)).2.2.2) := by
    simp only [total_mix_cost_split_order]
    rw [hmapM]
    simp only [Option.map_some', List.map_map, _compute_total_cost,
      Option.some_inj, Prod.mk.injEq]
    refine ⟨?_, ?_, ?_⟩
    · rfl
    · rfl
    · rw [countP_order_eq_filter_card order.length order shifts rfl hnd hbound]
  refine ⟨hsplit, ?_, ?_⟩
  · simp only [attempt_overall]
    rw [hsplit]
    simp only [Option.map_some', Option.some_inj]
    simp only [_compute_total_cost, SHIFT_PENALTY]
    ring
  · simp only [_compute_total_cost, SHIFT_WEIGHT]

/-- **C6 counterexample**: the reporting identity `overall = H + TCW*T + SHIFT_WEIGHT*S`
fails when the configuration sets `SHIFT_WEIGHT = 2`: for bpms `[120, 120]`, base keys
`["1A", "1B"]`, order `[0, 1]` and shifts `[1, 1]`, the reported split is
`(H, T, S) = (1/2, 0, 2)` and the reported overall is `5/2 = 1/2 + 3*0 + 1*S`,
while the claimed `H + TEMPO_COST_WEIGHT*T + 2*S = 9/2` differs by `2`, far beyond
the `1e-9` tolerance: line 704 of mixer.py adds `s` un-weighted. -/
theorem C6_counterexample :
    total_mix_cost_split_order [120, 120] [cam "1A", cam "1B"] [0, 1] [1, 1] =
      some (SAME_KEY_SCALE_CHANGE_COST, 0, 2) ∧
    attempt_overall [120, 120] [cam "1A", cam "1B"] [0, 1] [1, 1] = some (5 / 2) ∧
    ¬ (|(5 / 2 : ℚ) - (SAME_KEY_SCALE_CHANGE_COST + TEMPO_COST_WEIGHT * 0 + 2 * 2)| ≤
        1 / 1000000000) := by
  obtain ⟨d, ind, htr, hd, -⟩ := transition_eq_some (cam "8A") (cam "8B") (by decide) (by decide)
  have h8 : harmonic_cost_from_keys (cam "8A") (cam "8B") = some SAME_KEY_SCALE_CHANGE_COST := rfl
  rw [h8] at hd
  have hdval : d = SAME_KEY_SCALE_CHANGE_COST := (Option.some_inj.mp hd).symm
  subst hdval
  have hcomp : transition_cost_components [120, 120] [cam "1A", cam "1B"] 0 1 1 1 =
      some (SAME_KEY_SCALE_CHANGE_COST, 0) := by
    simp only [transition_cost_components]
    have hg1 : (([120, 120] : List ℤ).getD 0 0) = 120 := rfl
    have hg2 : (([120, 120] : List ℤ).getD 1 0) = 120 := rfl
    rw [hg1, hg2]
    rw [if_neg (by norm_num [TEMPO_BREAK_FACTOR, TEMPO_THRESHOLD])]
    have hk1 : (([cam "1A", cam "1B"] : List CamStr).getD 0 []) = cam "1A" := rfl
    have hk2 : (([cam "1A", cam "1B"] : List CamStr).getD 1 []) = cam "1B" := rfl
    rw [hk1, hk2]
    have hs1 : shift_camelot_key (cam "1A") 1 = some (cam "8A") := by decide
    have hs2 : shift_camelot_key (cam "1B") 1 = some (cam "8B") := by decide
    rw [hs1, hs2]
    dsimp only
    rw [htr]
    dsimp only
    rw [if_neg (by
      rintro ⟨h1, -⟩
      norm_num [SAME_KEY_SCALE_CHANGE_COST, NON_HARMONIC_COST] at h1)]
    have htv : tempo_cost_value 120 120 = 0 := by
      norm_num [tempo_cost_value, TEMPO_THRESHOLD]
    rw [htv]
  have hsplit : total_mix_cost_split_order [120, 120] [cam "1A", cam "1B"] [0, 1] [1, 1] =
      some (SAME_KEY_SCALE_CHANGE_COST, 0, 2) := by
    simp only [total_mix_cost_split_order]
    have hr : List.range ((([0, 1] : List ℕ)).length - 1) = [0] := rfl
    rw [hr]
    simp only [List.mapM_cons, List.mapM_nil]
    have e1 : (([0, 1] : List ℕ).getD 0 0) = 0 := rfl
    have e2 : (([0, 1] : List ℕ).getD (0 + 1) 0) = 1 := rfl
    rw [e1, e2]
    have e3 : (([1, 1] : List ℤ).getD 0 0) = 1 := rfl
    have e4 : (([1, 1] : List ℤ).getD 1 0) = 1 := rfl
    rw [e3, e4]
    rw [hcomp]
    have ec : (([0, 1] : List ℕ).countP (fun i => (([1, 1] : List ℤ).getD i 0) != 0)) = 2 := rfl
    simp only [Option.pure_def, Option.bind_eq_bind, Option.some_bind, Option.map_some',
      List.map_cons, List.map_nil, List.sum_cons, List.sum_nil, ec]
    norm_num [SHIFT_PENALTY]
  refine ⟨hsplit, ?_, ?_⟩
  · simp only [attempt_overall]
    rw [hsplit]
    simp only [Option.map_some', Option.some_inj]
    norm_num [SAME_KEY_SCALE_CHANGE_COST, TEMPO_COST_WEIGHT]
  · intro hcontra
    rw [show (5 / 2 : ℚ) - (SAME_KEY_SCALE_CHANGE_COST + TEMPO_COST_WEIGHT * 0 + 2 * 2) = -2 by
      norm_num [SAME_KEY_SCALE_CHANGE_COST, TEMPO_COST_WEIGHT]] at hcontra
    rw [abs_neg, abs_two] at hcontra
    norm_num at hcontra

/-- Witness for C6_breakdown_identity at a concrete input: for bpms `[120, 120]`,
keys `["1A", "1B"]`, order `[0, 1]` and shifts `[1, 1]`, the reported overall equals
the default-configuration full state cost. -/
theorem C6_breakdown_identity_witness :
    attempt_overall [120, 120] [cam "1A", cam "1B"] [0, 1] [1, 1] =
      some ((_compute_total_cost 1 [0, 1] [1, 1] [120, 120]
        (base_key_ids [cam "1A", cam "1B"])).1) :=
  (C6_breakdown_identity [120, 120] [cam "1A", cam "1B"] (by decide) [0, 1] [1, 1]
    (by decide) (by decide) (by decide)
    (fun j => by
      match j with
      | 0 => exact Or.inr (Or.inr rfl)
      | 1 => exact Or.inr (Or.inr rfl)
      | n + 2 => exact Or.inr (Or.inl rfl))).2.1

example : lstrip0 (cam "05A") = cam "5A" := by decide
example : parse_camelot (cam "10A") = some (10, 'A') := by decide
example : shift_camelot_key (cam "8B") 1 = some (cam "3B") := by decide
example : shift_camelot_key (cam "13A") 1 = none := by decide
example : harmonic_cost_from_keys (cam "8A") (cam "8B") = some SAME_KEY_SCALE_CHANGE_COST := rfl
example : harmonic_cost_from_keys (cam "8A") (cam "1A") = some NON_HARMONIC_COST := rfl
example : extract_key_from_comments (cam "05A some comment") = some (some (cam "5A")) := by decide
